import Mathlib

/-!
Shallow embedding of the puzzle search engine of `puzzles-BFS-DFS`:
`puzzle_tools.py` (`depth_first_solve`, `breadth_first_solve`, `PuzzleNode`)
together with the puzzle variants `word_ladder_puzzle.py`, `mn_puzzle.py`
and `grid_peg_solitaire_puzzle.py`.

The searches in the source may diverge on infinite state spaces, so the
embedding adds an explicit fuel parameter; `SearchRes.outOfFuel` marks fuel
exhaustion and is distinct from the Python results (a node, or `None` =
`SearchRes.noSolution`).  Python's mutable `seen` set is threaded
explicitly as a list of canonical strings; `set.add` becomes consing the
string (the code only adds a string after a membership test).
-/

/-- Abstract puzzle interface used by `puzzle_tools.py`.  The base class
`puzzle.py` is not in the repository snapshot; the interface operations are
the ones the search engine calls on a puzzle: `is_solved()`, `fail_fast()`,
`extensions()` and the canonical string `str(p)` (field `canon`). -/
structure PuzzleImpl (α : Type) where
  is_solved : α → Bool
  fail_fast : α → Bool
  extensions : α → List α
  canon : α → String

/-- The tree of `PuzzleNode`s a search returns: a puzzle value plus the
owned `children` list (`puzzle_tools.py`, class `PuzzleNode`).  The parent
back-reference of the Python class is represented separately by `BNode`
for the BFS frontier, where it is the field actually used. -/
inductive PNode (α : Type) : Type where
  | mk (puzzle : α) (children : List (PNode α)) : PNode α

/-- Accessor for the `puzzle` field of a `PNode`. -/
def PNode.puzzle {α : Type} : PNode α → α
  | .mk p _ => p

/-- Accessor for the `children` field of a `PNode`. -/
def PNode.children {α : Type} : PNode α → List (PNode α)
  | .mk _ c => c

/-- The configurations along the leftmost chain of a node tree: the node's
puzzle followed by the chain of its first child.  On the linear chains the
searches return this is the solution path from root to leaf. -/
def chainList {α : Type} : PNode α → List α
  | .mk p [] => [p]
  | .mk p (c :: _) => p :: chainList c

/-- The puzzle stored at the root of a returned node tree. -/
def rootPuzzle {α : Type} : PNode α → α
  | .mk p _ => p

/-- The puzzle at the leaf reached by following first-child links. -/
def leafPuzzle {α : Type} : PNode α → α
  | .mk p [] => p
  | .mk _ (c :: _) => leafPuzzle c

/-- True iff the tree is a linear chain: every node has exactly one child
except the leaf, which has none. -/
def isLinear {α : Type} : PNode α → Bool
  | .mk _ [] => true
  | .mk _ [c] => isLinear c
  | .mk _ (_ :: _ :: _) => false

/-- A frontier node of `breadth_first_solve`: `PuzzleNode(ext, parent=n)`.
The constructor of `PuzzleNode` stores the parent but leaves `children`
empty (`self.children = []`); the BFS loop never appends to any `children`
list, so during the search every node's `children` is the empty list it was
created with, and the parent chain is immutable.  This lets the frontier
node be a pure value holding the full parent chain. -/
inductive BNode (α : Type) : Type where
  | mk (puzzle : α) (children : List (BNode α)) (parent : Option (BNode α)) : BNode α

/-- Accessor for the `puzzle` field of a `BNode`. -/
def BNode.puzzle {α : Type} : BNode α → α
  | .mk p _ _ => p

/-- Accessor for the `children` field of a `BNode`. -/
def BNode.children {α : Type} : BNode α → List (BNode α)
  | .mk _ c _ => c

/-- Accessor for the `parent` field of a `BNode`. -/
def BNode.parent {α : Type} : BNode α → Option (BNode α)
  | .mk _ _ par => par

/-- Number of parent links from a node up to its root. -/
def depth {α : Type} : BNode α → Nat
  | .mk _ _ none => 0
  | .mk _ _ (some par) => depth par + 1

/-- The puzzles along the parent chain of a node, root first, ending with
the node's own puzzle. -/
def bnodePath {α : Type} : BNode α → List α
  | .mk p _ none => [p]
  | .mk p _ (some par) => bnodePath par ++ [p]

/-- Helper for `get_path`: walking up from `n`, each parent's children
sequence is overwritten to the single child on the path
(`current_node_.parent.children = [current_node_]`), accumulating the
pruned chain; at the root the accumulated chain is returned. -/
def get_path_go {α : Type} : BNode α → PNode α → PNode α
  | .mk _ _ none, acc => acc
  | .mk _ _ (some par), acc => get_path_go par (PNode.mk (BNode.puzzle par) [acc])

/-- `get_path` of `breadth_first_solve`: reconstructs the root-to-`n` chain
by walking parent links and rewriting each ancestor's children to the
single on-path child.  The found node keeps its own children, which are
empty during the BFS (see `BNode`); `node.puzzle is not None` always holds
here since every search node carries a puzzle. -/
def get_path {α : Type} (n : BNode α) : PNode α :=
  get_path_go n (PNode.mk (BNode.puzzle n) [])

/-- Result of one iteration of the `while pending_que:` loop body. -/
inductive BfsOut (α : Type) : Type where
  | found (t : PNode α) : BfsOut α
  | noSolution : BfsOut α
  | running (queue : List (BNode α)) (seen : List String) : BfsOut α

/-- One iteration of the BFS loop (`puzzle_tools.py` lines 79-90):
pop the front node; if solved, return `get_path` of it; else if its
canonical string is unvisited and `fail_fast()` is false, mark it visited
and enqueue a child node for every extension whose canonical string is not
visited (the just-added string included).  An empty queue ends the loop,
returning `None`. -/
def bfsStep {α : Type} (P : PuzzleImpl α) : List (BNode α) → List String → BfsOut α
  | [], _ => BfsOut.noSolution
  | n :: rest, seen =>
    if P.is_solved (BNode.puzzle n) = true then
      BfsOut.found (get_path n)
    else if P.canon (BNode.puzzle n) ∈ seen then
      BfsOut.running rest seen
    else if P.fail_fast (BNode.puzzle n) = true then
      BfsOut.running rest seen
    else
      BfsOut.running
        (rest ++ ((P.extensions (BNode.puzzle n)).filter
            (fun e => decide (P.canon e ∉ P.canon (BNode.puzzle n) :: seen))).map
          (fun e => BNode.mk e [] (some n)))
        (P.canon (BNode.puzzle n) :: seen)

/-- Result of one search invocation: Python returns a `PuzzleNode` or
`None`; `outOfFuel` is the embedding artifact for exhausted fuel. -/
inductive SearchRes (α : Type) : Type where
  | found (t : PNode α) : SearchRes α
  | noSolution : SearchRes α
  | outOfFuel : SearchRes α

/-- The BFS loop, one `bfsStep` per unit of fuel. -/
def bfsLoop {α : Type} (P : PuzzleImpl α) : Nat → List (BNode α) → List String → SearchRes α
  | 0, _, _ => SearchRes.outOfFuel
  | fuel + 1, queue, seen =>
    match bfsStep P queue seen with
    | BfsOut.found t => SearchRes.found t
    | BfsOut.noSolution => SearchRes.noSolution
    | BfsOut.running queue1 seen1 => bfsLoop P fuel queue1 seen1

/-- `breadth_first_solve(puzzle)`: start from a queue holding one root node
wrapping the initial puzzle (no parent, no children) and an empty visited
set. -/
def breadth_first_solve {α : Type} (P : PuzzleImpl α) (fuel : Nat) (p : α) : SearchRes α :=
  bfsLoop P fuel [BNode.mk p [] none] []

/-- The `for extension in puzzle_1.extensions():` loop of `dfs`
(`puzzle_tools.py` lines 30-46): skip extensions whose canonical string was
seen; otherwise mark the string seen and recurse (the recursive call on a
child configuration is passed in as `rec`, so that the fuel recursion of
`dfs` stays structural); on success attach the child as the single child of
the current node and return immediately, abandoning the remaining siblings.
Falling off the loop yields `None`. -/
def dfsExts {α : Type} (P : PuzzleImpl α)
    (rec : α → List String → SearchRes α × List String) (p : α) :
    List α → List String → SearchRes α × List String
  | [], seen => (SearchRes.noSolution, seen)
  | e :: es, seen =>
    if P.canon e ∈ seen then
      dfsExts P rec p es seen
    else
      match rec e (P.canon e :: seen) with
      | (SearchRes.found child, seen1) => (SearchRes.found (PNode.mk p [child]), seen1)
      | (SearchRes.outOfFuel, seen1) => (SearchRes.outOfFuel, seen1)
      | (SearchRes.noSolution, seen1) => dfsExts P rec p es seen1

/-- The recursive helper `dfs(puzzle_1, seen)` of `depth_first_solve`
(`puzzle_tools.py` lines 23-46).  If `fail_fast()` holds the branch yields
`None` at once; if solved, a leaf node; otherwise the extensions are tried
in order by `dfsExts`.  The updated visited set is returned alongside the
result since Python mutates the shared `seen` set in place. -/
def dfs {α : Type} (P : PuzzleImpl α) : Nat → α → List String → SearchRes α × List String
  | 0, _, seen => (SearchRes.outOfFuel, seen)
  | fuel + 1, p, seen =>
    if P.fail_fast p = true then
      (SearchRes.noSolution, seen)
    else if P.is_solved p = true then
      (SearchRes.found (PNode.mk p []), seen)
    else
      dfsExts P (dfs P fuel) p (P.extensions p) seen

/-- `depth_first_solve(puzzle)`: seed the visited set with the initial
configuration's canonical string, then run `dfs`. -/
def depth_first_solve {α : Type} (P : PuzzleImpl α) (fuel : Nat) (p : α) : SearchRes α :=
  (dfs P fuel p [P.canon p]).1

/-!
Word-ladder puzzle variant (`word_ladder_puzzle.py`).  Words are lists of
characters (Python strings); the word set `_word_set` is a Python set used
only through membership, and the extension history `_path` is a list, so
both are lists here.
-/

/-- `WordLadderPuzzle` state: `_from_word`, `_to_word`, `_word_set`, and
the extension-history `_path` the constructor initialises to
`[self._from_word]`. -/
structure WordLadderPuzzle where
  from_word : List Char
  to_word : List Char
  word_set : List (List Char)
  path : List (List Char)
deriving DecidableEq

/-- The fixed substitution alphabet `self._chars`. -/
def wlChars : List Char := ("abcdefghijklmnopqrstuvwxyz").toList

/-- `WordLadderPuzzle.extensions`: for each position `i` of `_from_word`
and each character `c` of `_chars` with `c` different from the character at
`i`, substitute `c` at `i`; keep the new word when it is in `_word_set` and
not in `_path`, recording it in the new puzzle's `_path`.  The `getD`
default is never used: `i` ranges over in-bounds positions only (and with
default `c` an out-of-bounds read would fail the `≠ c` test anyway). -/
def WordLadderPuzzle.extensions (p : WordLadderPuzzle) : List WordLadderPuzzle :=
  (List.range p.from_word.length).flatMap (fun i =>
    wlChars.flatMap (fun c =>
      if p.from_word.getD i c ≠ c then
        (fun new_word =>
          if new_word ∈ p.word_set ∧ new_word ∉ p.path then
            [⟨new_word, p.to_word, p.word_set, p.path ++ [new_word]⟩]
          else [])
        (p.from_word.take i ++ c :: p.from_word.drop (i + 1))
      else []))

/-- `WordLadderPuzzle.__str__`:
`"Solving word ladder from {from}->{to}"`. -/
def wlStr (p : WordLadderPuzzle) : String :=
  String.mk (("Solving word ladder from ").toList ++ p.from_word
    ++ ("->").toList ++ p.to_word)

/-- Python set equality on sets represented as lists: equal as sets. -/
def setEqv {β : Type} [DecidableEq β] (a b : List β) : Bool :=
  a.all (fun x => decide (x ∈ b)) && b.all (fun x => decide (x ∈ a))

/-- `WordLadderPuzzle.__eq__`: same type, same `_from_word`, `_to_word`
and `_word_set` (set equality); `_path` is not compared. -/
def wlBeq (p q : WordLadderPuzzle) : Bool :=
  p.from_word == q.from_word && p.to_word == q.to_word
    && setEqv p.word_set q.word_set

/-- The puzzle interface of the word-ladder variant.  `is_solved` is
`self._from_word == self._to_word`.  `fail_fast` — modelled from the spec:
`puzzle.py` (the base class defining the default) is not in the repository
snapshot, and the spec states the default is false
(`fail_fast() -> bool (default false)`); `word_ladder_puzzle.py` does not
override it. -/
def wlImpl : PuzzleImpl WordLadderPuzzle where
  is_solved := fun p => p.from_word == p.to_word
  fail_fast := fun _ => false
  extensions := WordLadderPuzzle.extensions
  canon := wlStr

/-- The word set of the spec's concrete scenario 2. -/
def wlWords : List (List Char) :=
  [("oo").toList, ("kk").toList, ("ok").toList, ("ko").toList]

/-- The initial word-ladder puzzle of scenario 2: from "ok" to "ko". -/
def wlOkKo : WordLadderPuzzle :=
  ⟨("ok").toList, ("ko").toList, wlWords, [("ok").toList]⟩

/-- First extension of `wlOkKo`: "kk" -> "ko". -/
def wlKk : WordLadderPuzzle :=
  ⟨("kk").toList, ("ko").toList, wlWords, [("ok").toList, ("kk").toList]⟩

/-- Second extension of `wlOkKo`: "oo" -> "ko". -/
def wlOo : WordLadderPuzzle :=
  ⟨("oo").toList, ("ko").toList, wlWords, [("ok").toList, ("oo").toList]⟩

/-- The BFS root node wrapping `wlOkKo`. -/
def wlRootNode : BNode WordLadderPuzzle := BNode.mk wlOkKo [] none

/-- The frontier node for extension "kk" enqueued by the first BFS step. -/
def wlKkNode : BNode WordLadderPuzzle := BNode.mk wlKk [] (some wlRootNode)

/-- The frontier node for extension "oo" enqueued by the first BFS step. -/
def wlOoNode : BNode WordLadderPuzzle := BNode.mk wlOo [] (some wlRootNode)

/-- Puzzle used to witness C5: `fail_fast` and `is_solved` are both true. -/
def ffImpl : PuzzleImpl Unit where
  is_solved := fun _ => true
  fail_fast := fun _ => true
  extensions := fun _ => []
  canon := fun _ => "u"

/-- One-move reachability chains: consecutive elements of the list are
related by `extensions`. -/
def IsStateChain {α : Type} (P : PuzzleImpl α) (l : List α) : Prop :=
  List.Chain' (fun a b => b ∈ P.extensions a) l

/-- The puzzles along the strict ancestors of a node, root first. -/
def parentsPath {α : Type} : BNode α → List α
  | .mk _ _ none => []
  | .mk _ _ (some par) => bnodePath par

/-- The solved "ko" -> "ko" configuration reached through "kk". -/
def wlKoKk : WordLadderPuzzle :=
  ⟨("ko").toList, ("ko").toList, wlWords,
    [("ok").toList, ("kk").toList, ("ko").toList]⟩

/-- The solution chain ok -> kk -> ko both searches return on `wlOkKo`. -/
def wlSolTree : PNode WordLadderPuzzle :=
  PNode.mk wlOkKo [PNode.mk wlKk [PNode.mk wlKoKk []]]

/-- The canonical strings of a finite list of states, as a finite set. -/
def canonsOf {α : Type} (P : PuzzleImpl α) (R : List α) : Finset String :=
  (R.map P.canon).toFinset

/-- How many canonical strings of `R` are not yet in the visited set. -/
def unseenCount {α : Type} (P : PuzzleImpl α) (R : List α) (seen : List String) : Nat :=
  ((canonsOf P R).filter (fun c => c ∉ seen)).card

/-- An upper bound on the number of extensions of any state in `R`. -/
def extBound {α : Type} (P : PuzzleImpl α) (R : List α) : Nat :=
  (R.map (fun p => (P.extensions p).length)).foldr max 0

/-- Termination measure for the BFS loop on a finite closed state space:
every iteration pops one node and an expanding iteration consumes one
unseen canonical string while enqueueing at most `extBound` children. -/
def bfsMeasure {α : Type} (P : PuzzleImpl α) (R : List α)
    (q : List (BNode α)) (seen : List String) : Nat :=
  q.length + (extBound P R + 1) * unseenCount P R seen

/-- `WordLadderPuzzle.__init__`: the source constructor performs no
validation, so construction always succeeds; `_path` starts as
`[from_word]`. -/
def WordLadderPuzzle.init? (f t : List Char) (ws : List (List Char)) :
    Option WordLadderPuzzle :=
  some ⟨f, t, ws, [f]⟩

/-- The space character (code 32) used by `" ".join`. -/
def spaceChar : Char := Char.ofNat 32

/-- The newline character (code 10) appended after each grid row. -/
def newlineChar : Char := Char.ofNat 10

/-- One grid row as printed: cells joined by spaces, then a newline
(`result += " ".join(grid[i]) + "\n"`, shared by `MNPuzzle.__str__` and
`GridPegSolitairePuzzle.__str__`). -/
def renderRow (r : List Char) : List Char :=
  List.intersperse spaceChar r ++ [newlineChar]

/-- A whole grid as printed: the concatenation of its rendered rows. -/
def renderGrid (g : List (List Char)) : List Char :=
  (g.map renderRow).flatten

/-- `MNPuzzle` state: current grid `from_grid` and target grid `to_grid`.
Grid cells are single symbols (letters or numerals, `*` for the blank), so
they are characters here.  The derived `n`, `m` fields of the source are
only used by `__repr__` and are omitted. -/
structure MNPuzzle where
  from_grid : List (List Char)
  to_grid : List (List Char)
deriving DecidableEq

/-- `MNPuzzle.__init__` with its three `assert` statements: non-empty
`from_grid`, uniform row length in `from_grid` (measured against row 0)
and in `to_grid` (vacuous when `to_grid` is empty, as in the source where
`to_grid[0]` is only evaluated inside the comprehension).  `None` is the
assertion failure. -/
def MNPuzzle.init? (from_grid to_grid : List (List Char)) : Option MNPuzzle :=
  if 0 < from_grid.length
      ∧ (∀ r ∈ from_grid, r.length = (from_grid.getD 0 []).length)
      ∧ (∀ r ∈ to_grid, r.length = (to_grid.getD 0 []).length) then
    some ⟨from_grid, to_grid⟩
  else none

/-- `grid[y][x]` (used only at in-bounds positions; `#` is the dummy
out-of-bounds value). -/
def cellAt (g : List (List Char)) (y x : Nat) : Char := (g.getD y []).getD x '#'

/-- `new_grid[y][x] = c`: replace one cell of a grid. -/
def setCell (g : List (List Char)) (y x : Nat) (c : Char) : List (List Char) :=
  g.set y ((g.getD y []).set x c)

/-- `MNPuzzle.extensions`: scan the grid for `*`; at each blank emit the
swaps with the right, left, lower and upper neighbour, in that order
(`mn_puzzle.py` lines 119-175); `transform` is the identity here since
tuple and list grids coincide. -/
def MNPuzzle.extensions (p : MNPuzzle) : List MNPuzzle :=
  (List.range p.from_grid.length).flatMap (fun y =>
    (List.range (p.from_grid.getD 0 []).length).flatMap (fun x =>
      if cellAt p.from_grid y x = '*' then
        (if x + 1 < (p.from_grid.getD 0 []).length then
          [⟨setCell (setCell p.from_grid y x (cellAt p.from_grid y (x + 1))) y (x + 1) '*',
            p.to_grid⟩]
        else [])
        ++ (if 1 ≤ x then
          [⟨setCell (setCell p.from_grid y x (cellAt p.from_grid y (x - 1))) y (x - 1) '*',
            p.to_grid⟩]
        else [])
        ++ (if y + 1 < p.from_grid.length then
          [⟨setCell (setCell p.from_grid y x (cellAt p.from_grid (y + 1) x)) (y + 1) x '*',
            p.to_grid⟩]
        else [])
        ++ (if 1 ≤ y then
          [⟨setCell (setCell p.from_grid y x (cellAt p.from_grid (y - 1) x)) (y - 1) x '*',
            p.to_grid⟩]
        else [])
      else []))

/-- `MNPuzzle.__str__`: the rendered `from_grid`. -/
def mnStr (p : MNPuzzle) : String := String.mk (renderGrid p.from_grid)

/-- `MNPuzzle.__eq__`: same type, equal `from_grid` and `to_grid`. -/
def mnBeq (p q : MNPuzzle) : Bool :=
  p.from_grid == q.from_grid && p.to_grid == q.to_grid

/-- The puzzle interface of the m-by-n sliding puzzle.  `is_solved` is
`from_grid == to_grid`.  `fail_fast` — modelled from the spec: the base
class `puzzle.py` is absent from the snapshot and the spec gives the
default false; `mn_puzzle.py` does not override it. -/
def mnImpl : PuzzleImpl MNPuzzle where
  is_solved := fun p => p.from_grid == p.to_grid
  fail_fast := fun _ => false
  extensions := MNPuzzle.extensions
  canon := mnStr

/-- `GridPegSolitairePuzzle` state: the marker grid and the allowed marker
set (`"#"` unused, `"*"` peg, `"."` empty). -/
structure GridPegSolitairePuzzle where
  marker : List (List Char)
  marker_set : List Char
deriving DecidableEq

/-- `GridPegSolitairePuzzle.__init__` with its `assert` statements:
`marker` is a non-empty list, rows `marker[1:]` match row 0 in length,
every cell is in `marker_set`, and `marker_set` only holds `*`, `.`, `#`
(`isinstance(marker, list)` always holds here).  `None` is the assertion
failure. -/
def GridPegSolitairePuzzle.init? (marker : List (List Char)) (marker_set : List Char) :
    Option GridPegSolitairePuzzle :=
  if 0 < marker.length
      ∧ (∀ r ∈ marker.tail, r.length = (marker.getD 0 []).length)
      ∧ (∀ row ∈ marker, ∀ x ∈ row, x ∈ marker_set)
      ∧ (∀ x ∈ marker_set, x = '*' ∨ x = '.' ∨ x = '#') then
    some ⟨marker, marker_set⟩
  else none

/-- `GridPegSolitairePuzzle.extensions`: scan for `.`; at each empty cell
emit the jump landing there from the right, left, below and above, in
that order (`grid_peg_solitaire_puzzle.py` lines 147-195); each jump turns
the empty cell into a peg and the two jumped-over cells empty. -/
def GridPegSolitairePuzzle.extensions (p : GridPegSolitairePuzzle) :
    List GridPegSolitairePuzzle :=
  (List.range p.marker.length).flatMap (fun y =>
    (List.range (p.marker.getD 0 []).length).flatMap (fun x =>
      if cellAt p.marker y x = '.' then
        (if x + 2 < (p.marker.getD 0 []).length then
          if cellAt p.marker y (x + 1) = '*' ∧ cellAt p.marker y (x + 2) = '*' then
            [⟨setCell (setCell (setCell p.marker y x '*') y (x + 1) '.') y (x + 2) '.',
              p.marker_set⟩]
          else []
        else [])
        ++ (if 2 ≤ x then
          if cellAt p.marker y (x - 1) = '*' ∧ cellAt p.marker y (x - 2) = '*' then
            [⟨setCell (setCell (setCell p.marker y (x - 2) '.') y (x - 1) '.') y x '*',
              p.marker_set⟩]
          else []
        else [])
        ++ (if y + 2 < p.marker.length then
          if cellAt p.marker (y + 1) x = '*' ∧ cellAt p.marker (y + 2) x = '*' then
            [⟨setCell (setCell (setCell p.marker y x '*') (y + 1) x '.') (y + 2) x '.',
              p.marker_set⟩]
          else []
        else [])
        ++ (if 2 ≤ y then
          if cellAt p.marker (y - 1) x = '*' ∧ cellAt p.marker (y - 2) x = '*' then
            [⟨setCell (setCell (setCell p.marker (y - 2) x '.') (y - 1) x '.') y x '*',
              p.marker_set⟩]
          else []
        else [])
      else []))

/-- Number of `*` markers in a grid (`GridPegSolitairePuzzle.is_solved`
counts them). -/
def starCount (g : List (List Char)) : Nat := (g.map (fun r => r.count '*')).sum

/-- `GridPegSolitairePuzzle.__str__`: the rendered marker grid. -/
def gpStr (p : GridPegSolitairePuzzle) : String := String.mk (renderGrid p.marker)

/-- `GridPegSolitairePuzzle.__eq__`: same type, equal marker grid and
equal marker set (set equality). -/
def gpBeq (p q : GridPegSolitairePuzzle) : Bool :=
  p.marker == q.marker && setEqv p.marker_set q.marker_set

/-- The puzzle interface of grid peg solitaire.  `is_solved` is true iff
exactly one `*` remains.  `fail_fast` — modelled from the spec: the base
class `puzzle.py` is absent from the snapshot and the spec gives the
default false; `grid_peg_solitaire_puzzle.py` does not override it. -/
def gpImpl : PuzzleImpl GridPegSolitairePuzzle where
  is_solved := fun p => starCount p.marker == 1
  fail_fast := fun _ => false
  extensions := GridPegSolitairePuzzle.extensions
  canon := gpStr

/-- Rows of a grid all have the length of row 0 — the shape every
constructed `MNPuzzle.from_grid` and `GridPegSolitairePuzzle.marker`
satisfies by the constructor assertions. -/
def UniformRows (g : List (List Char)) : Prop :=
  ∀ r ∈ g, r.length = (g.getD 0 []).length

/-- An m-by-n puzzle with two adjacent blanks: swapping them yields an
extension identical to the parent configuration. -/
def mnTwoStars : MNPuzzle := ⟨[['*', '*']], [['1', '2']]⟩

/-- An unsolvable peg-solitaire grid: two pegs with no adjacent pair, so
`extensions()` is empty. -/
def gpUnsolvable : GridPegSolitairePuzzle :=
  ⟨[['*', '.', '.', '*']], ['*', '.', '#']⟩

/-- Grids whose cells never contain the newline character — true of the
documented symbol alphabets (letters, numerals, `*`, `.`, `#`). -/
def NoNewlineCells (g : List (List Char)) : Prop :=
  ∀ r ∈ g, ∀ c ∈ r, c ≠ newlineChar

/-- Reachability chains up to canonical strings: each successor's
canonical string occurs among the canonical strings of the predecessor's
extensions.  Every state chain is such a chain, and under a faithful
canonical form they describe exactly the paths the visited-set semantics
distinguishes. -/
def IsCanonChain {α : Type} (P : PuzzleImpl α) (l : List α) : Prop :=
  List.Chain' (fun a b => P.canon b ∈ (P.extensions a).map P.canon) l

/-- The spec's canonical-string contract: `str` is equal for and only for
semantically equivalent configurations, so canon-equal states agree on
`is_solved`, `fail_fast` and on their extensions up to canonical
strings. -/
def CanonFaithful {α : Type} (P : PuzzleImpl α) : Prop :=
  ∀ p q, P.canon p = P.canon q →
    P.is_solved p = P.is_solved q ∧ P.fail_fast p = P.fail_fast q
      ∧ (P.extensions p).map P.canon = (P.extensions q).map P.canon

/-- The spec's `fail_fast` contract: it is true only for provably
unsolvable configurations, so no configuration from which a solution chain
exists reports fail-fast. -/
def FailFastHonest {α : Type} (P : PuzzleImpl α) : Prop :=
  ∀ (p : α) (l : List α) (z : α), IsStateChain P (p :: l) →
    (p :: l).getLast? = some z → P.is_solved z = true → P.fail_fast p = false

/-- A two-state puzzle used to witness the BFS optimality theorem:
`false` steps to the solved state `true`. -/
def boolImpl : PuzzleImpl Bool where
  is_solved := fun b => b
  fail_fast := fun _ => false
  extensions := fun b => if b then [] else [true]
  canon := fun b => if b then "t" else "f"

/-!
End of definitions; the development's theorems follow.
-/

/-- C9: for the word ladder from "ok" to "ko" over {"oo","kk","ok","ko"},
`extensions()` yields exactly the two puzzles "kk"->"ko" then "oo"->"ko"
in that order, and `breadth_first_solve` returns a 2-step path (here
ok -> kk -> ko, one of the two minimum-length solutions the claim
permits). -/
theorem c9_word_ladder_scenario :
    (WordLadderPuzzle.extensions wlOkKo).map WordLadderPuzzle.from_word
        = [("kk").toList, ("oo").toList]
    ∧ (WordLadderPuzzle.extensions wlOkKo).length = 2
    ∧ ∃ t, breadth_first_solve wlImpl 20 wlOkKo = SearchRes.found t
        ∧ (chainList t).length - 1 = 2
        ∧ ((chainList t).map WordLadderPuzzle.from_word
              = [("ok").toList, ("kk").toList, ("ko").toList]
           ∨ (chainList t).map WordLadderPuzzle.from_word
              = [("ok").toList, ("oo").toList, ("ko").toList]) :=
  ⟨by decide, by decide, _, rfl, rfl, Or.inl (by decide)⟩

/-- C3, counterexample: after the very first BFS step on the "ok" -> "ko"
word ladder, the node wrapping extension "kk" has the root as parent, yet
the root's children sequence is empty — enqueueing did not attach the new
node to its parent's children, contradicting the claimed invariant that at
every point of the search every non-root node's parent's children sequence
contains it. -/
theorem c3_counterexample :
    bfsStep wlImpl [wlRootNode] [] = BfsOut.running [wlKkNode, wlOoNode] [wlStr wlOkKo]
    ∧ BNode.parent wlKkNode = some wlRootNode
    ∧ wlKkNode ∉ BNode.children wlRootNode :=
  ⟨rfl, rfl, by simp [wlRootNode, BNode.children]⟩

/-- Walking up the parent chain in `get_path_go` wraps the accumulated
chain in single-child nodes, so linearity of the accumulator is
preserved. -/
theorem get_path_go_linear {α : Type} :
    ∀ (m : BNode α) (acc : PNode α),
      isLinear acc = true → isLinear (get_path_go m acc) = true
  | .mk _ _ none, _, h => h
  | .mk _ _ (some par), acc, h =>
    get_path_go_linear par (PNode.mk (BNode.puzzle par) [acc]) h

/-- C3, amended: newly created nodes are enqueued with an empty children
sequence and are not attached to their parent at enqueue time — every BFS
step preserves "all frontier nodes have empty children"; attachment to the
parent's children happens only during `get_path` after a solved node is
dequeued, which rewrites each ancestor's children to the single on-path
child, so any returned tree is a linear chain in which every non-leaf
node's children sequence contains exactly its on-path child. -/
theorem c3_amended :
    (∀ (α : Type) (P : PuzzleImpl α) (q : List (BNode α)) (s : List String)
        (q1 : List (BNode α)) (s1 : List String),
      (∀ n ∈ q, BNode.children n = []) → bfsStep P q s = BfsOut.running q1 s1 →
      ∀ n ∈ q1, BNode.children n = [])
    ∧ (∀ (α : Type) (n : BNode α), isLinear (get_path n) = true) := by
  constructor
  · intro α P q s q1 s1 hq hstep n hn
    match q with
    | [] => simp [bfsStep] at hstep
    | m :: rest =>
      simp only [bfsStep] at hstep
      split at hstep
      · exact absurd hstep (by simp)
      · split at hstep
        · cases hstep
          exact hq n (List.mem_cons_of_mem _ hn)
        · split at hstep
          · cases hstep
            exact hq n (List.mem_cons_of_mem _ hn)
          · cases hstep
            rcases List.mem_append.mp hn with h | h
            · exact hq n (List.mem_cons_of_mem _ h)
            · rcases List.mem_map.mp h with ⟨e, _, rfl⟩
              rfl
  · exact fun α n => get_path_go_linear n (PNode.mk (BNode.puzzle n) []) rfl

/-- C5: whenever `fail_fast()` is true, the recursive `dfs` step returns
`None` for that branch immediately, leaving the visited set unchanged —
regardless of `is_solved()` and without consulting `extensions()`. -/
theorem c5_fail_fast_prunes (α : Type) (P : PuzzleImpl α) (fuel : Nat) (p : α)
    (seen : List String) (h : P.fail_fast p = true) :
    dfs P (fuel + 1) p seen = (SearchRes.noSolution, seen) := by
  simp [dfs, h]

/-- Witness for C5 at a concrete puzzle that is simultaneously solved and
fail-fast: the branch is still pruned to `None` with the seen set
untouched. -/
theorem c5_witness :
    ffImpl.fail_fast () = true ∧ ffImpl.is_solved () = true
    ∧ dfs ffImpl 1 () [] = (SearchRes.noSolution, []) :=
  ⟨rfl, rfl, c5_fail_fast_prunes Unit ffImpl 0 () [] rfl⟩

/-- The leftmost chain of a node tree is never empty. -/
theorem chainList_ne_nil {α : Type} : ∀ t : PNode α, chainList t ≠ []
  | .mk _ [] => by simp [chainList]
  | .mk _ (_ :: _) => by simp [chainList]

/-- The head of the leftmost chain is the root's puzzle. -/
theorem chainList_head? {α : Type} :
    ∀ t : PNode α, (chainList t).head? = some (rootPuzzle t)
  | .mk _ [] => rfl
  | .mk _ (_ :: _) => rfl

/-- The last element of the leftmost chain is the leaf's puzzle. -/
theorem chainList_getLast? {α : Type} :
    ∀ t : PNode α, (chainList t).getLast? = some (leafPuzzle t)
  | .mk _ [] => rfl
  | .mk p (c :: cs) => by
    show (p :: chainList c).getLast? = some (leafPuzzle c)
    rw [show p :: chainList c = [p] ++ chainList c from rfl,
      List.getLast?_append_of_ne_nil _ (chainList_ne_nil c),
      chainList_getLast? c]

/-- A node's root-first parent-chain path splits into the strict ancestors
followed by the node's own puzzle. -/
theorem bnodePath_eq_parentsPath {α : Type} :
    ∀ n : BNode α, bnodePath n = parentsPath n ++ [BNode.puzzle n]
  | .mk _ _ none => rfl
  | .mk _ _ (some _) => rfl

/-- The parent-chain path is never empty. -/
theorem bnodePath_ne_nil {α : Type} : ∀ n : BNode α, bnodePath n ≠ []
  | .mk _ _ none => by simp [bnodePath]
  | .mk _ _ (some _) => by simp [bnodePath]

/-- The parent-chain path has one element per tree level. -/
theorem bnodePath_length {α : Type} :
    ∀ n : BNode α, (bnodePath n).length = depth n + 1
  | .mk _ _ none => rfl
  | .mk p c (some par) => by
    show (bnodePath par ++ [p]).length = depth par + 1 + 1
    rw [List.length_append, bnodePath_length par]
    rfl

/-- The parent-chain path ends with the node's own puzzle. -/
theorem bnodePath_getLast? {α : Type} :
    ∀ n : BNode α, (bnodePath n).getLast? = some (BNode.puzzle n)
  | .mk _ _ none => rfl
  | .mk p c (some par) => by
    show (bnodePath par ++ [p]).getLast? = some p
    rw [List.getLast?_append_of_ne_nil _ (by simp : [p] ≠ [])]
    rfl

/-- `get_path_go` prepends the ancestor puzzles to the accumulated chain. -/
theorem chainList_get_path_go {α : Type} :
    ∀ (m : BNode α) (acc : PNode α),
      chainList (get_path_go m acc) = parentsPath m ++ chainList acc
  | .mk _ _ none, _ => rfl
  | .mk p c (some par), acc => by
    show chainList (get_path_go par (PNode.mk (BNode.puzzle par) [acc]))
      = bnodePath par ++ chainList acc
    rw [chainList_get_path_go par,
      show chainList (PNode.mk (BNode.puzzle par) [acc])
        = BNode.puzzle par :: chainList acc from rfl,
      bnodePath_eq_parentsPath par, List.append_assoc]
    rfl

/-- The chain of the reconstructed path is exactly the found node's
root-first parent-chain path. -/
theorem chainList_get_path {α : Type} (n : BNode α) :
    chainList (get_path n) = bnodePath n := by
  rw [get_path, chainList_get_path_go, bnodePath_eq_parentsPath]
  rfl

/-- `get_path_go` leaves the leaf of the accumulated chain unchanged. -/
theorem get_path_go_leaf {α : Type} :
    ∀ (m : BNode α) (acc : PNode α),
      leafPuzzle (get_path_go m acc) = leafPuzzle acc
  | .mk _ _ none, _ => rfl
  | .mk _ _ (some par), acc => get_path_go_leaf par (PNode.mk (BNode.puzzle par) [acc])

/-- The leaf of the reconstructed path is the found node's puzzle. -/
theorem leafPuzzle_get_path {α : Type} (n : BNode α) :
    leafPuzzle (get_path n) = BNode.puzzle n :=
  get_path_go_leaf n (PNode.mk (BNode.puzzle n) [])

/-- When the BFS loop returns a tree, that tree is `get_path` of a solved
dequeued frontier node; any property `Q` of frontier nodes preserved by
child creation and true of the initial queue holds of that node. -/
theorem bfsLoop_found_node {α : Type} (P : PuzzleImpl α) (Q : BNode α → Prop)
    (hstep : ∀ n, Q n → ∀ e ∈ P.extensions (BNode.puzzle n), Q (BNode.mk e [] (some n))) :
    ∀ (fuel : Nat) (q : List (BNode α)) (s : List String) (t : PNode α),
      (∀ n ∈ q, Q n) → bfsLoop P fuel q s = SearchRes.found t →
      ∃ n, Q n ∧ P.is_solved (BNode.puzzle n) = true ∧ t = get_path n := by
  intro fuel
  induction fuel with
  | zero =>
    intro q s t _ h
    exact absurd h (by simp [bfsLoop])
  | succ fuel ih =>
    intro q s t hq hrun
    match q with
    | [] => simp [bfsLoop, bfsStep] at hrun
    | m :: rest =>
      by_cases hsol : P.is_solved (BNode.puzzle m) = true
      · simp only [bfsLoop, bfsStep, hsol, if_true, if_pos] at hrun
        cases hrun
        exact ⟨m, hq m (List.mem_cons_self _ _), hsol, rfl⟩
      · by_cases hseen : P.canon (BNode.puzzle m) ∈ s
        · simp only [bfsLoop, bfsStep, hsol, hseen, if_false, if_pos, if_neg,
            not_false_iff] at hrun
          exact ih rest s t (fun n hn => hq n (List.mem_cons_of_mem _ hn)) hrun
        · by_cases hff : P.fail_fast (BNode.puzzle m) = true
          · simp only [bfsLoop, bfsStep, hsol, hseen, hff, if_true, if_false,
              if_pos, if_neg, not_false_iff] at hrun
            exact ih rest s t (fun n hn => hq n (List.mem_cons_of_mem _ hn)) hrun
          · simp only [bfsLoop, bfsStep, hsol, hseen, hff, if_true, if_false,
              if_pos, if_neg, not_false_iff] at hrun
            refine ih _ _ t ?_ hrun
            intro n hn
            rcases List.mem_append.mp hn with h | h
            · exact hq n (List.mem_cons_of_mem _ h)
            · rcases List.mem_map.mp h with ⟨e, he, rfl⟩
              exact hstep m (hq m (List.mem_cons_self _ _)) e
                (List.mem_filter.mp he).1

/-- Inversion for the extension loop of `dfs`: a found result arises from
some extension in the list whose recursive call found a child, and the
returned node wraps the current puzzle with that single child. -/
theorem dfsExts_found_inv {α : Type} (P : PuzzleImpl α)
    (rec : α → List String → SearchRes α × List String) (p : α) :
    ∀ (es : List α) (seen : List String) (t : PNode α) (s1 : List String),
      dfsExts P rec p es seen = (SearchRes.found t, s1) →
      ∃ e ∈ es, ∃ child s2 seen0,
        rec e (P.canon e :: seen0) = (SearchRes.found child, s2)
        ∧ t = PNode.mk p [child] := by
  intro es
  induction es with
  | nil => intro seen t s1 h; simp [dfsExts] at h
  | cons e es ih =>
    intro seen t s1 h
    by_cases hc : P.canon e ∈ seen
    · simp only [dfsExts, hc, if_pos] at h
      rcases ih seen t s1 h with ⟨e1, he1, rest⟩
      exact ⟨e1, List.mem_cons_of_mem _ he1, rest⟩
    · simp only [dfsExts, hc, if_neg, not_false_iff] at h
      rcases hrec : rec e (P.canon e :: seen) with ⟨r, s2⟩
      rw [hrec] at h
      rcases r with child | _ | _
      · cases h
        exact ⟨e, List.mem_cons_self _ _, child, _, seen, hrec, rfl⟩
      · rcases ih s2 t s1 h with ⟨e1, he1, rest⟩
        exact ⟨e1, List.mem_cons_of_mem _ he1, rest⟩
      · simp at h

/-- Any tree `dfs` finds is a linear chain starting at the argument
configuration, stepping through `extensions`, and ending solved. -/
theorem dfs_found_props {α : Type} (P : PuzzleImpl α) :
    ∀ (fuel : Nat) (p : α) (seen : List String) (t : PNode α) (s1 : List String),
      dfs P fuel p seen = (SearchRes.found t, s1) →
      (chainList t).head? = some p ∧ IsStateChain P (chainList t)
        ∧ P.is_solved (leafPuzzle t) = true ∧ isLinear t = true := by
  intro fuel
  induction fuel with
  | zero => intro p seen t s1 h; simp [dfs] at h
  | succ fuel ih =>
    intro p seen t s1 h
    by_cases hff : P.fail_fast p = true
    · simp [dfs, hff] at h
    · by_cases hsol : P.is_solved p = true
      · simp only [dfs, hff, hsol, if_pos, if_neg, not_false_iff] at h
        cases h
        exact ⟨rfl, List.chain'_singleton _, hsol, rfl⟩
      · simp only [dfs, hff, hsol, if_pos, if_neg, not_false_iff] at h
        rcases dfsExts_found_inv P (dfs P fuel) p (P.extensions p) seen t s1 h with
          ⟨e, he, child, s2, seen0, hrec, rfl⟩
        rcases ih e (P.canon e :: seen0) child s2 hrec with ⟨hhead, hchain, hleaf, hlin⟩
        refine ⟨rfl, ?_, hleaf, hlin⟩
        show IsStateChain P (p :: chainList child)
        refine List.chain'_cons'.mpr ⟨?_, hchain⟩
        intro y hy
        rw [hhead] at hy
        cases hy
        exact he

/-- C2: whenever either search returns a node, the root's puzzle is the
initial configuration, the tree is a linear chain (one child per node
except the leaf), and the leaf's puzzle is solved. -/
theorem c2_solution_shape :
    ∀ (α : Type) (P : PuzzleImpl α) (fuel : Nat) (p : α) (t : PNode α),
      (depth_first_solve P fuel p = SearchRes.found t →
        rootPuzzle t = p ∧ isLinear t = true ∧ P.is_solved (leafPuzzle t) = true)
      ∧ (breadth_first_solve P fuel p = SearchRes.found t →
        rootPuzzle t = p ∧ isLinear t = true ∧ P.is_solved (leafPuzzle t) = true) := by
  intro α P fuel p t
  constructor
  · intro h
    rcases hd : dfs P fuel p [P.canon p] with ⟨r, s1⟩
    have hr : r = SearchRes.found t := by
      rw [depth_first_solve, hd] at h
      exact h
    rcases dfs_found_props P fuel p [P.canon p] t s1 (by rw [hd, hr]) with
      ⟨hh, _, hleaf, hlin⟩
    have hroot := chainList_head? t
    rw [hh] at hroot
    exact ⟨(Option.some.inj hroot).symm, hlin, hleaf⟩
  · intro h
    have hrun := bfsLoop_found_node P (fun n => (bnodePath n).head? = some p)
      (fun n hQ e he => by
        show (bnodePath (BNode.mk e [] (some n))).head? = some p
        rw [show bnodePath (BNode.mk e [] (some n)) = bnodePath n ++ [e] from rfl,
          List.head?_append_of_ne_nil _ (bnodePath_ne_nil n)]
        exact hQ)
      fuel [BNode.mk p [] none] [] t
      (by intro n hn; rcases List.mem_singleton.mp hn with rfl; rfl) h
    rcases hrun with ⟨n, hQ, hsol, rfl⟩
    refine ⟨?_, get_path_go_linear n (PNode.mk (BNode.puzzle n) []) rfl, ?_⟩
    · have hroot := chainList_head? (get_path n)
      rw [chainList_get_path, hQ] at hroot
      exact (Option.some.inj hroot).symm
    · rw [leafPuzzle_get_path]
      exact hsol

/-- Witness for C2: on the ok -> ko word ladder both searches return the
concrete linear chain ok -> kk -> ko, whose root is the initial
configuration and whose leaf is solved. -/
theorem c2_witness :
    depth_first_solve wlImpl 20 wlOkKo = SearchRes.found wlSolTree
    ∧ breadth_first_solve wlImpl 20 wlOkKo = SearchRes.found wlSolTree
    ∧ rootPuzzle wlSolTree = wlOkKo ∧ isLinear wlSolTree = true
    ∧ wlImpl.is_solved (leafPuzzle wlSolTree) = true :=
  ⟨rfl, rfl,
    ((c2_solution_shape WordLadderPuzzle wlImpl 20 wlOkKo wlSolTree).1 rfl).1,
    ((c2_solution_shape WordLadderPuzzle wlImpl 20 wlOkKo wlSolTree).2 rfl).2.1,
    ((c2_solution_shape WordLadderPuzzle wlImpl 20 wlOkKo wlSolTree).1 rfl).2.2⟩

/-- Members of a list of naturals are bounded by its `foldr max 0`. -/
theorem le_foldr_max : ∀ (l : List Nat), ∀ x ∈ l, x ≤ l.foldr max 0
  | _ :: t, x, h => by
    rcases List.mem_cons.mp h with rfl | h
    · exact Nat.le_max_left _ _
    · exact Nat.le_trans (le_foldr_max t x h) (Nat.le_max_right _ _)

/-- States of `R` have at most `extBound` extensions. -/
theorem length_extensions_le_extBound {α : Type} (P : PuzzleImpl α) (R : List α)
    (p : α) (hp : p ∈ R) : (P.extensions p).length ≤ extBound P R :=
  le_foldr_max _ _ (List.mem_map.mpr ⟨p, hp, rfl⟩)

/-- Visiting an unseen canonical string of `R` decreases the unseen count
by exactly one. -/
theorem unseenCount_cons {α : Type} (P : PuzzleImpl α) (R : List α)
    (seen : List String) (c : String) (hc : c ∈ canonsOf P R) (hcs : c ∉ seen) :
    unseenCount P R (c :: seen) + 1 = unseenCount P R seen := by
  have hset : (canonsOf P R).filter (fun x => x ∉ c :: seen)
      = ((canonsOf P R).filter (fun x => x ∉ seen)).erase c := by
    ext x
    simp only [Finset.mem_filter, Finset.mem_erase, List.mem_cons]
    constructor
    · rintro ⟨hx, hns⟩
      push_neg at hns
      exact ⟨hns.1, hx, hns.2⟩
    · rintro ⟨hne, hx, hns⟩
      exact ⟨hx, by push_neg; exact ⟨hne, hns⟩⟩
  have hmem : c ∈ (canonsOf P R).filter (fun x => x ∉ seen) :=
    Finset.mem_filter.mpr ⟨hc, hcs⟩
  have hpos : 0 < ((canonsOf P R).filter (fun x => x ∉ seen)).card :=
    Finset.card_pos.mpr ⟨c, hmem⟩
  rw [unseenCount, unseenCount, hset, Finset.card_erase_of_mem hmem]
  omega

/-- Growing the visited set can only shrink the unseen count. -/
theorem unseenCount_mono {α : Type} (P : PuzzleImpl α) (R : List α)
    (seen seen1 : List String) (h : ∀ x ∈ seen, x ∈ seen1) :
    unseenCount P R seen1 ≤ unseenCount P R seen := by
  apply Finset.card_le_card
  intro x hx
  rcases Finset.mem_filter.mp hx with ⟨hxc, hxs⟩
  exact Finset.mem_filter.mpr ⟨hxc, fun hmem => hxs (h x hmem)⟩

/-- An unseen canonical string of `R` makes the unseen count positive. -/
theorem unseenCount_pos {α : Type} (P : PuzzleImpl α) (R : List α)
    (seen : List String) (c : String) (hc : c ∈ canonsOf P R) (hcs : c ∉ seen) :
    1 ≤ unseenCount P R seen :=
  Finset.card_pos.mpr ⟨c, Finset.mem_filter.mpr ⟨hc, hcs⟩⟩

/-- With fuel above the measure, the BFS loop cannot run out of fuel on a
queue of states from a finite, extension-closed list `R`. -/
theorem bfsLoop_no_outOfFuel {α : Type} (P : PuzzleImpl α) (R : List α)
    (hclosed : ∀ p ∈ R, ∀ e ∈ P.extensions p, e ∈ R) :
    ∀ (fuel : Nat) (q : List (BNode α)) (seen : List String),
      (∀ n ∈ q, BNode.puzzle n ∈ R) →
      bfsMeasure P R q seen < fuel →
      bfsLoop P fuel q seen ≠ SearchRes.outOfFuel := by
  intro fuel
  induction fuel with
  | zero => intro q seen _ hm; exact absurd hm (Nat.not_lt_zero _)
  | succ fuel ih =>
    intro q seen hR hm
    match q with
    | [] => simp [bfsLoop, bfsStep]
    | m :: rest =>
      by_cases hsol : P.is_solved (BNode.puzzle m) = true
      · simp [bfsLoop, bfsStep, hsol]
      · by_cases hseen : P.canon (BNode.puzzle m) ∈ seen
        · simp only [bfsLoop, bfsStep, hsol, hseen, if_false, if_pos, if_neg,
            not_false_iff]
          apply ih rest seen (fun n hn => hR n (List.mem_cons_of_mem _ hn))
          have : bfsMeasure P R rest seen + 1 = bfsMeasure P R (m :: rest) seen := by
            simp [bfsMeasure, List.length_cons]
            omega
          omega
        · by_cases hff : P.fail_fast (BNode.puzzle m) = true
          · simp only [bfsLoop, bfsStep, hsol, hseen, hff, if_true, if_false,
              if_pos, if_neg, not_false_iff]
            apply ih rest seen (fun n hn => hR n (List.mem_cons_of_mem _ hn))
            have : bfsMeasure P R rest seen + 1 = bfsMeasure P R (m :: rest) seen := by
              simp [bfsMeasure, List.length_cons]
              omega
            omega
          · simp only [bfsLoop, bfsStep, hsol, hseen, hff, if_true, if_false,
              if_pos, if_neg, not_false_iff]
            set ch := ((P.extensions (BNode.puzzle m)).filter
              (fun e => decide (P.canon e ∉ P.canon (BNode.puzzle m) :: seen))).map
              (fun e => BNode.mk e [] (some m)) with hch
            apply ih (rest ++ ch) (P.canon (BNode.puzzle m) :: seen)
            · intro n hn
              rcases List.mem_append.mp hn with h | h
              · exact hR n (List.mem_cons_of_mem _ h)
              · rcases List.mem_map.mp h with ⟨e, he, rfl⟩
                exact hclosed (BNode.puzzle m) (hR m (List.mem_cons_self _ _)) e
                  (List.mem_filter.mp he).1
            · have hchlen : ch.length ≤ extBound P R := by
                rw [hch, List.length_map]
                exact Nat.le_trans (List.length_filter_le _ _)
                  (length_extensions_le_extBound P R _ (hR m (List.mem_cons_self _ _)))
              have hcanon : P.canon (BNode.puzzle m) ∈ canonsOf P R :=
                List.mem_toFinset.mpr
                  (List.mem_map.mpr ⟨BNode.puzzle m, hR m (List.mem_cons_self _ _), rfl⟩)
              have hdec := unseenCount_cons P R seen (P.canon (BNode.puzzle m)) hcanon hseen
              have hexp : (extBound P R + 1) * unseenCount P R seen
                  = (extBound P R + 1) * unseenCount P R (P.canon (BNode.puzzle m) :: seen)
                    + (extBound P R + 1) := by
                rw [← hdec]
                ring
              simp only [bfsMeasure, List.length_append, List.length_cons] at hm ⊢
              omega

/-- The extension loop only ever grows the visited set, provided the
recursive call does. -/
theorem dfsExts_seen_mono {α : Type} (P : PuzzleImpl α)
    (rec : α → List String → SearchRes α × List String)
    (hrec : ∀ e s x, x ∈ s → x ∈ (rec e s).2) (p : α) :
    ∀ (es : List α) (seen : List String) (x : String),
      x ∈ seen → x ∈ (dfsExts P rec p es seen).2 := by
  intro es
  induction es with
  | nil => intro seen x hx; exact hx
  | cons e es ih =>
    intro seen x hx
    by_cases hc : P.canon e ∈ seen
    · simp only [dfsExts, hc, if_pos]
      exact ih seen x hx
    · simp only [dfsExts, hc, if_neg, not_false_iff]
      have hx1 : x ∈ (rec e (P.canon e :: seen)).2 :=
        hrec e (P.canon e :: seen) x (List.mem_cons_of_mem _ hx)
      rcases hrc : rec e (P.canon e :: seen) with ⟨r, s2⟩
      rw [hrc] at hx1
      rcases r with child | _ | _
      · exact hx1
      · exact ih s2 x hx1
      · exact hx1

/-- `dfs` only ever grows the visited set. -/
theorem dfs_seen_mono {α : Type} (P : PuzzleImpl α) :
    ∀ (fuel : Nat) (p : α) (seen : List String) (x : String),
      x ∈ seen → x ∈ (dfs P fuel p seen).2 := by
  intro fuel
  induction fuel with
  | zero => intro p seen x hx; exact hx
  | succ fuel ih =>
    intro p seen x hx
    by_cases hff : P.fail_fast p = true
    · simp only [dfs, hff, if_pos]; exact hx
    · by_cases hsol : P.is_solved p = true
      · simp only [dfs, hff, hsol, if_pos, if_neg, not_false_iff]; exact hx
      · simp only [dfs, hff, hsol, if_pos, if_neg, not_false_iff]
        exact dfsExts_seen_mono P (dfs P fuel) (fun e s => ih e s) p
          (P.extensions p) seen x hx

/-- With fuel above the number of unseen canonical strings of a finite,
extension-closed list `R`, `dfs` cannot run out of fuel: each recursive
descent first marks a fresh canonical string visited. -/
theorem dfs_no_outOfFuel {α : Type} (P : PuzzleImpl α) (R : List α)
    (hclosed : ∀ p ∈ R, ∀ e ∈ P.extensions p, e ∈ R) :
    ∀ fuel : Nat,
      (∀ (p : α) (seen : List String), p ∈ R → unseenCount P R seen < fuel →
        (dfs P fuel p seen).1 ≠ SearchRes.outOfFuel)
      ∧ (∀ (p : α) (es : List α) (seen : List String), p ∈ R →
          (∀ e ∈ es, e ∈ P.extensions p) → unseenCount P R seen < fuel + 1 →
          (dfsExts P (dfs P fuel) p es seen).1 ≠ SearchRes.outOfFuel) := by
  intro fuel
  induction fuel with
  | zero =>
    constructor
    · intro p seen _ hm
      exact absurd hm (Nat.not_lt_zero _)
    · intro p es seen hp hsub hm
      induction es generalizing seen with
      | nil => simp [dfsExts]
      | cons e es ihe =>
        by_cases hc : P.canon e ∈ seen
        · simp only [dfsExts, hc, if_pos]
          exact ihe seen (fun x hx => hsub x (List.mem_cons_of_mem _ hx)) hm
        · exfalso
          have he : e ∈ R := hclosed p hp e (hsub e (List.mem_cons_self _ _))
          have hcanon : P.canon e ∈ canonsOf P R :=
            List.mem_toFinset.mpr (List.mem_map.mpr ⟨e, he, rfl⟩)
          have := unseenCount_pos P R seen (P.canon e) hcanon hc
          omega
  | succ fuel ih =>
    have hdfs : ∀ (p : α) (seen : List String), p ∈ R →
        unseenCount P R seen < fuel + 1 →
        (dfs P (fuel + 1) p seen).1 ≠ SearchRes.outOfFuel := by
      intro p seen hp hm
      by_cases hff : P.fail_fast p = true
      · simp [dfs, hff]
      · by_cases hsol : P.is_solved p = true
        · simp [dfs, hff, hsol]
        · simp only [dfs, hff, hsol, if_pos, if_neg, not_false_iff]
          exact ih.2 p (P.extensions p) seen hp (fun e he => he)
            (by omega)
    refine ⟨hdfs, ?_⟩
    intro p es seen hp hsub hm
    induction es generalizing seen with
    | nil => simp [dfsExts]
    | cons e es ihe =>
      by_cases hc : P.canon e ∈ seen
      · simp only [dfsExts, hc, if_pos]
        exact ihe seen (fun x hx => hsub x (List.mem_cons_of_mem _ hx)) hm
      · simp only [dfsExts, hc, if_neg, not_false_iff]
        have he : e ∈ R := hclosed p hp e (hsub e (List.mem_cons_self _ _))
        have hcanon : P.canon e ∈ canonsOf P R :=
          List.mem_toFinset.mpr (List.mem_map.mpr ⟨e, he, rfl⟩)
        have hdec := unseenCount_cons P R seen (P.canon e) hcanon hc
        rcases hrc : dfs P (fuel + 1) e (P.canon e :: seen) with ⟨r, s2⟩
        rcases r with child | _ | _
        · simp
        · -- the child branch exhausted; continue with the grown seen set
          apply ihe s2 (fun x hx => hsub x (List.mem_cons_of_mem _ hx))
          have hgrow : ∀ x ∈ P.canon e :: seen, x ∈ s2 := by
            intro x hx
            have := dfs_seen_mono P (fuel + 1) e (P.canon e :: seen) x hx
            rw [hrc] at this
            exact this
          have := unseenCount_mono P R (P.canon e :: seen) s2 hgrow
          omega
        · -- the child cannot run out of fuel
          exfalso
          have hno := hdfs e (P.canon e :: seen) he (by omega)
          rw [hrc] at hno
          exact hno rfl

/-- The last element of a list is a member of it. -/
theorem mem_of_getLast?_eq {α : Type} {l : List α} {a : α}
    (h : l.getLast? = some a) : a ∈ l := by
  rcases List.mem_getLast?_eq_getLast (show a ∈ l.getLast? from h) with ⟨hne, rfl⟩
  exact List.getLast_mem hne

/-- Every element of an extension chain starting in an extension-closed
list `R` stays in `R`. -/
theorem chain_subset_closed {α : Type} (P : PuzzleImpl α) (R : List α)
    (hclosed : ∀ p ∈ R, ∀ e ∈ P.extensions p, e ∈ R) :
    ∀ (l : List α), IsStateChain P l →
      ∀ p, l.head? = some p → p ∈ R → ∀ x ∈ l, x ∈ R := by
  intro l
  induction l with
  | nil => intro _ p hp; simp at hp
  | cons a t iht =>
    intro hch p hp hpR x hx
    have ha : a ∈ R := by
      cases Option.some.inj hp
      exact hpR
    rcases List.mem_cons.mp hx with rfl | hx
    · exact ha
    · match t, hx with
      | b :: t1, hx =>
        have hrel := (List.chain'_cons'.mp hch).1 b rfl
        have hb : b ∈ R := hclosed a ha b hrel
        exact iht (List.chain'_cons'.mp hch).2 b rfl hb x hx

/-- C4: on a puzzle whose reachable states lie in a finite,
extension-closed list `R`, both searches terminate (some fuel avoids
`outOfFuel`), and if no state of `R` is solved they return "no solution"
as a normal result. -/
theorem c4_finite_termination :
    ∀ (α : Type) (P : PuzzleImpl α) (init : α) (R : List α),
      init ∈ R → (∀ p ∈ R, ∀ e ∈ P.extensions p, e ∈ R) →
      ∃ fuel : Nat,
        depth_first_solve P fuel init ≠ SearchRes.outOfFuel
        ∧ breadth_first_solve P fuel init ≠ SearchRes.outOfFuel
        ∧ ((∀ p ∈ R, P.is_solved p = false) →
            depth_first_solve P fuel init = SearchRes.noSolution
            ∧ breadth_first_solve P fuel init = SearchRes.noSolution) := by
  intro α P init R hinit hclosed
  refine ⟨max (unseenCount P R [] + 1) (bfsMeasure P R [BNode.mk init [] none] [] + 1),
    ?_, ?_, ?_⟩
  case _ =>
    show (dfs P _ init [P.canon init]).1 ≠ SearchRes.outOfFuel
    apply (dfs_no_outOfFuel P R hclosed _).1 init [P.canon init] hinit
    have h1 := unseenCount_mono P R [] [P.canon init] (by simp)
    have h2 := Nat.le_max_left (unseenCount P R [] + 1)
      (bfsMeasure P R [BNode.mk init [] none] [] + 1)
    omega
  case _ =>
    apply bfsLoop_no_outOfFuel P R hclosed _ _ []
    · intro n hn
      rcases List.mem_singleton.mp hn with rfl
      exact hinit
    · have h2 := Nat.le_max_right (unseenCount P R [] + 1)
        (bfsMeasure P R [BNode.mk init [] none] [] + 1)
      omega
  case _ =>
    intro hnosol
    constructor
    · rcases hd : depth_first_solve P _ init with t | _ | _
      · exfalso
        rcases hdd : dfs P (max (unseenCount P R [] + 1)
            (bfsMeasure P R [BNode.mk init [] none] [] + 1)) init [P.canon init]
          with ⟨r, s1⟩
        have hr : r = SearchRes.found t := by
          rw [depth_first_solve, hdd] at hd
          exact hd
        rcases dfs_found_props P _ init [P.canon init] t s1 (by rw [hdd, hr]) with
          ⟨hh, hchain, hleaf, _⟩
        have hmem : leafPuzzle t ∈ R := by
          apply chain_subset_closed P R hclosed (chainList t) hchain init hh hinit
          exact mem_of_getLast?_eq (chainList_getLast? t)
        rw [hnosol (leafPuzzle t) hmem] at hleaf
        exact Bool.false_ne_true hleaf
      · rfl
      · exfalso
        apply (dfs_no_outOfFuel P R hclosed _).1 init [P.canon init] hinit ?_
        · exact hd
        · have h1 := unseenCount_mono P R [] [P.canon init] (by simp)
          have h2 := Nat.le_max_left (unseenCount P R [] + 1)
            (bfsMeasure P R [BNode.mk init [] none] [] + 1)
          omega
    · rcases hb : breadth_first_solve P _ init with t | _ | _
      · exfalso
        rcases bfsLoop_found_node P (fun n => BNode.puzzle n ∈ R)
            (fun n hQ e he => hclosed _ hQ e he) _ _ [] t
            (by intro n hn; rcases List.mem_singleton.mp hn with rfl; exact hinit)
            hb with ⟨n, hQ, hsol, _⟩
        rw [hnosol _ hQ] at hsol
        exact Bool.false_ne_true hsol
      · rfl
      · exfalso
        apply bfsLoop_no_outOfFuel P R hclosed _ _ [] ?_ ?_ hb
        · intro n hn
          rcases List.mem_singleton.mp hn with rfl
          exact hinit
        · have h2 := Nat.le_max_right (unseenCount P R [] + 1)
            (bfsMeasure P R [BNode.mk init [] none] [] + 1)
          omega

/-- Witness for C4: the unsolvable one-row peg grid `* . . *` (no
adjacent peg pair) is a finite closed state space with no solved state;
some fuel makes both searches return "no solution". -/
theorem c4_witness :
    gpUnsolvable ∈ [gpUnsolvable]
    ∧ (∀ p ∈ [gpUnsolvable], ∀ e ∈ gpImpl.extensions p, e ∈ [gpUnsolvable])
    ∧ (∀ p ∈ [gpUnsolvable], gpImpl.is_solved p = false)
    ∧ ∃ fuel : Nat,
        depth_first_solve gpImpl fuel gpUnsolvable = SearchRes.noSolution
        ∧ breadth_first_solve gpImpl fuel gpUnsolvable = SearchRes.noSolution := by
  refine ⟨by decide, by decide, by decide, ?_⟩
  rcases c4_finite_termination GridPegSolitairePuzzle gpImpl gpUnsolvable [gpUnsolvable]
    (by decide) (by decide) with ⟨fuel, _, _, h⟩
  exact ⟨fuel, h (by decide)⟩

/-- C8, counterexample: the word-ladder constructor accepts the empty
configuration (empty start word, empty target, empty word set) instead of
failing with a validation error — `WordLadderPuzzle.__init__` contains no
validation at all. -/
theorem c8_counterexample :
    (WordLadderPuzzle.init? [] [] []).isSome = true := rfl

/-- C8, amended: `MNPuzzle` and `GridPegSolitairePuzzle` validate exactly
the grid preconditions asserted in their constructors (non-empty grid and
uniform row lengths; peg solitaire additionally checks cell membership in
the marker set and the marker set's symbols), while `WordLadderPuzzle`
performs no construction-time validation whatsoever, and `MNPuzzle` checks
neither symbol membership in an allowed set nor non-emptiness of the
target grid. -/
theorem c8_amended :
    (∀ (f t : List Char) (ws : List (List Char)),
      (WordLadderPuzzle.init? f t ws).isSome = true)
    ∧ (∀ from_grid to_grid : List (List Char),
        (MNPuzzle.init? from_grid to_grid).isSome = true
          ↔ (0 < from_grid.length
            ∧ (∀ r ∈ from_grid, r.length = (from_grid.getD 0 []).length)
            ∧ (∀ r ∈ to_grid, r.length = (to_grid.getD 0 []).length)))
    ∧ (∀ (marker : List (List Char)) (marker_set : List Char),
        (GridPegSolitairePuzzle.init? marker marker_set).isSome = true
          ↔ (0 < marker.length
            ∧ (∀ r ∈ marker.tail, r.length = (marker.getD 0 []).length)
            ∧ (∀ row ∈ marker, ∀ x ∈ row, x ∈ marker_set)
            ∧ (∀ x ∈ marker_set, x = '*' ∨ x = '.' ∨ x = '#'))) := by
  refine ⟨fun f t ws => rfl, ?_, ?_⟩
  · intro fg tg
    rw [MNPuzzle.init?]
    split
    · next h => exact iff_of_true rfl h
    · next h => exact iff_of_false (by simp) h
  · intro m ms
    rw [GridPegSolitairePuzzle.init?]
    split
    · next h => exact iff_of_true rfl h
    · next h => exact iff_of_false (by simp) h

/-- C6, counterexample: for the m-by-n puzzle with two adjacent blanks
`[[*,*]]`, both entries of `extensions()` have a canonical string equal to
the parent's — swapping the two blanks reproduces the same grid. -/
theorem c6_counterexample :
    (MNPuzzle.extensions mnTwoStars).map mnStr = [mnStr mnTwoStars, mnStr mnTwoStars]
    ∧ (MNPuzzle.extensions mnTwoStars).length = 2 := by
  constructor
  · rfl
  · rfl

/-- Witness for C3's amended statement: the initial ok -> ko queue has
all-empty children, and so does the queue produced by the first step. -/
theorem c3_amended_witness :
    (∀ n ∈ [wlRootNode], BNode.children n = [])
    ∧ bfsStep wlImpl [wlRootNode] [] = BfsOut.running [wlKkNode, wlOoNode] [wlStr wlOkKo]
    ∧ (∀ n ∈ [wlKkNode, wlOoNode], BNode.children n = []) := by
  refine ⟨?_, rfl, ?_⟩
  · intro n hn
    rcases List.mem_singleton.mp hn with rfl
    rfl
  · exact c3_amended.1 WordLadderPuzzle wlImpl [wlRootNode] [] [wlKkNode, wlOoNode]
      [wlStr wlOkKo]
      (fun n hn => by rcases List.mem_singleton.mp hn with rfl; rfl) rfl

/-- `getD` at an in-bounds index ignores the default. -/
theorem getD_irrel {β : Type} :
    ∀ (l : List β) (i : Nat) (d1 d2 : β), i < l.length → l.getD i d1 = l.getD i d2
  | _ :: _, 0, _, _, _ => rfl
  | _ :: t, i + 1, d1, d2, h => getD_irrel t i d1 d2 (by simpa using h)
  | [], _, _, _, h => absurd h (by simp)

/-- `getD` after `set` at the same in-bounds index yields the new value. -/
theorem getD_set_self {β : Type} :
    ∀ (l : List β) (i : Nat) (b d : β), i < l.length → (l.set i b).getD i d = b
  | _ :: _, 0, _, _, _ => rfl
  | _ :: t, i + 1, b, d, h => getD_set_self t i b d (by simpa using h)
  | [], _, _, _, h => absurd h (by simp)

/-- `getD` after `set` at a different index is unchanged. -/
theorem getD_set_ne {β : Type} :
    ∀ (l : List β) (i j : Nat), i ≠ j → ∀ (b d : β), (l.set i b).getD j d = l.getD j d
  | [], _, _, _, _, _ => by simp
  | _ :: _, 0, 0, h, _, _ => absurd rfl h
  | _ :: _, 0, _ + 1, _, _, _ => rfl
  | _ :: _, _ + 1, 0, _, _, _ => rfl
  | _ :: t, i + 1, j + 1, h, b, d =>
    getD_set_ne t i j (fun hh => h (by rw [hh])) b d

/-- In-bounds `getD` values are members of the list. -/
theorem getD_mem {β : Type} :
    ∀ (l : List β) (i : Nat) (d : β), i < l.length → l.getD i d ∈ l
  | _ :: _, 0, _, _ => List.mem_cons_self _ _
  | _ :: t, i + 1, d, h => List.mem_cons_of_mem _ (getD_mem t i d (by simpa using h))
  | [], _, _, h => absurd h (by simp)

/-- `getD` commutes with `map`. -/
theorem getD_map {β γ : Type} (f : β → γ) :
    ∀ (l : List β) (i : Nat) (d : β), i < l.length →
      (l.map f).getD i (f d) = f (l.getD i d)
  | _ :: _, 0, _, _ => rfl
  | _ :: t, i + 1, d, h => getD_map f t i d (by simpa using h)
  | [], _, _, h => absurd h (by simp)

/-- Setting one in-bounds cell changes the `*` count of a row by the
difference between old and new cell (stated without subtraction). -/
theorem count_set_star :
    ∀ (r : List Char) (x : Nat) (c : Char), x < r.length →
      (r.set x c).count '*' + (if r.getD x c = '*' then 1 else 0)
        = r.count '*' + (if c = '*' then 1 else 0)
  | a :: t, 0, c, _ => by
    simp only [List.set_cons_zero, List.getD_cons_zero, List.count_cons]
    split_ifs <;> simp_all
  | a :: t, x + 1, c, h => by
    have ih := count_set_star t x c (by simpa using h)
    simp only [List.set_cons_succ, List.getD_cons_succ, List.count_cons]
    split_ifs at ih ⊢ <;> simp_all
  | [], _, _, h => absurd h (by simp)

/-- Replacing one in-bounds row changes the grid's `*` count by the
difference between old and new row counts. -/
theorem starCount_set_row :
    ∀ (g : List (List Char)) (y : Nat) (r : List Char), y < g.length →
      starCount (g.set y r) + (g.getD y []).count '*' = starCount g + r.count '*'
  | a :: t, 0, r, _ => by
    simp only [List.set_cons_zero, List.getD_cons_zero, starCount, List.map_cons,
      List.sum_cons]
    omega
  | a :: t, y + 1, r, h => by
    have ih := starCount_set_row t y r (by simpa using h)
    simp only [List.set_cons_succ, List.getD_cons_succ, starCount, List.map_cons,
      List.sum_cons] at ih ⊢
    omega
  | [], _, _, h => absurd h (by simp)

/-- Setting one in-bounds cell changes the grid's `*` count by the
difference between old and new cell. -/
theorem starCount_setCell (g : List (List Char)) (y x : Nat) (c : Char)
    (hy : y < g.length) (hx : x < (g.getD y []).length) :
    starCount (setCell g y x c) + (if cellAt g y x = '*' then 1 else 0)
      = starCount g + (if c = '*' then 1 else 0) := by
  have h1 := starCount_set_row g y ((g.getD y []).set x c) hy
  have h2 := count_set_star (g.getD y []) x c hx
  have h3 : cellAt g y x = (g.getD y []).getD x c := getD_irrel _ x _ c hx
  rw [setCell, h3]
  split_ifs at h2 ⊢ <;> omega

/-- `setCell` preserves the number of rows. -/
theorem length_setCell (g : List (List Char)) (y x : Nat) (c : Char) :
    (setCell g y x c).length = g.length := List.length_set _ _ _

/-- `setCell` preserves every row length. -/
theorem rowlen_setCell (g : List (List Char)) (y x : Nat) (c : Char) (j : Nat) :
    ((setCell g y x c).getD j []).length = (g.getD j []).length := by
  by_cases hj : y = j
  · subst hj
    by_cases hy : y < g.length
    · rw [setCell, getD_set_self g y _ [] hy, List.length_set]
    · rw [setCell, List.set_eq_of_length_le (by omega)]
  · rw [setCell, getD_set_ne g y j hj]

/-- Reading a cell outside the set row or column is unchanged. -/
theorem cellAt_setCell_ne (g : List (List Char)) (y x y1 x1 : Nat) (c : Char)
    (hne : y1 ≠ y ∨ x1 ≠ x) :
    cellAt (setCell g y x c) y1 x1 = cellAt g y1 x1 := by
  rcases hne with hne | hne
  · rw [cellAt, setCell, getD_set_ne g y y1 (fun h => hne h.symm), cellAt]
  · by_cases hy : y1 = y
    · subst hy
      by_cases hlt : y1 < g.length
      · rw [cellAt, setCell, getD_set_self g y1 _ [] hlt,
          getD_set_ne _ x x1 (fun h => hne h.symm), cellAt]
      · rw [cellAt, setCell, List.set_eq_of_length_le (by omega), cellAt]
    · rw [cellAt, setCell, getD_set_ne g y y1 (fun h => hy h.symm), cellAt]

/-- Reading the freshly set in-bounds cell yields the new value. -/
theorem cellAt_setCell_self (g : List (List Char)) (y x : Nat) (c : Char)
    (hy : y < g.length) (hx : x < (g.getD y []).length) :
    cellAt (setCell g y x c) y x = c := by
  rw [cellAt, setCell, getD_set_self g y _ [] hy, getD_set_self _ x c '#' (by simpa using hx)]

/-- A peg jump written as: land (`*`), then clear the two jumped cells:
the star count drops by exactly one. -/
theorem starCount_jump1 (g : List (List Char)) (ya xa yb xb yc xc : Nat)
    (hya : ya < g.length) (hxa : xa < (g.getD ya []).length)
    (hyb : yb < g.length) (hxb : xb < (g.getD yb []).length)
    (hyc : yc < g.length) (hxc : xc < (g.getD yc []).length)
    (hab : yb ≠ ya ∨ xb ≠ xa) (hac : yc ≠ ya ∨ xc ≠ xa) (hbc : yc ≠ yb ∨ xc ≠ xb)
    (ha : cellAt g ya xa = '.') (hb : cellAt g yb xb = '*') (hc : cellAt g yc xc = '*') :
    starCount (setCell (setCell (setCell g ya xa '*') yb xb '.') yc xc '.') + 1
      = starCount g := by
  have s1 := starCount_setCell g ya xa '*' hya hxa
  rw [ha, if_neg (by decide : ¬(('.' : Char) = '*')), if_pos rfl] at s1
  have hb1 : cellAt (setCell g ya xa '*') yb xb = '*' := by
    rw [cellAt_setCell_ne g ya xa yb xb '*' hab]; exact hb
  have s2 := starCount_setCell (setCell g ya xa '*') yb xb '.'
    (by rw [length_setCell]; exact hyb) (by rw [rowlen_setCell]; exact hxb)
  rw [hb1, if_pos rfl, if_neg (by decide : ¬(('.' : Char) = '*'))] at s2
  have hc2 : cellAt (setCell (setCell g ya xa '*') yb xb '.') yc xc = '*' := by
    rw [cellAt_setCell_ne _ yb xb yc xc '.' hbc, cellAt_setCell_ne g ya xa yc xc '*' hac]
    exact hc
  have s3 := starCount_setCell (setCell (setCell g ya xa '*') yb xb '.') yc xc '.'
    (by rw [length_setCell, length_setCell]; exact hyc)
    (by rw [rowlen_setCell, rowlen_setCell]; exact hxc)
  rw [hc2, if_pos rfl, if_neg (by decide : ¬(('.' : Char) = '*'))] at s3
  omega

/-- A peg jump written as: clear the two jumped cells, then land (`*`):
the star count drops by exactly one. -/
theorem starCount_jump2 (g : List (List Char)) (ya xa yb xb yc xc : Nat)
    (hya : ya < g.length) (hxa : xa < (g.getD ya []).length)
    (hyb : yb < g.length) (hxb : xb < (g.getD yb []).length)
    (hyc : yc < g.length) (hxc : xc < (g.getD yc []).length)
    (hab : ya ≠ yb ∨ xa ≠ xb) (hac : ya ≠ yc ∨ xa ≠ xc) (hbc : yc ≠ yb ∨ xc ≠ xb)
    (ha : cellAt g ya xa = '.') (hb : cellAt g yb xb = '*') (hc : cellAt g yc xc = '*') :
    starCount (setCell (setCell (setCell g yb xb '.') yc xc '.') ya xa '*') + 1
      = starCount g := by
  have s1 := starCount_setCell g yb xb '.' hyb hxb
  rw [hb, if_pos rfl, if_neg (by decide : ¬(('.' : Char) = '*'))] at s1
  have hc1 : cellAt (setCell g yb xb '.') yc xc = '*' := by
    rw [cellAt_setCell_ne g yb xb yc xc '.' hbc]; exact hc
  have s2 := starCount_setCell (setCell g yb xb '.') yc xc '.'
    (by rw [length_setCell]; exact hyc) (by rw [rowlen_setCell]; exact hxc)
  rw [hc1, if_pos rfl, if_neg (by decide : ¬(('.' : Char) = '*'))] at s2
  have ha2 : cellAt (setCell (setCell g yb xb '.') yc xc '.') ya xa = '.' := by
    rw [cellAt_setCell_ne _ yc xc ya xa '.' (by tauto),
      cellAt_setCell_ne g yb xb ya xa '.' (by tauto)]
    exact ha
  have s3 := starCount_setCell (setCell (setCell g yb xb '.') yc xc '.') ya xa '*'
    (by rw [length_setCell, length_setCell]; exact hya)
    (by rw [rowlen_setCell, rowlen_setCell]; exact hxa)
  rw [ha2, if_neg (by decide : ¬(('.' : Char) = '*')), if_pos rfl] at s3
  omega

/-- Inversion for `GridPegSolitairePuzzle.extensions`: every extension
keeps the marker set and replaces the grid by one of the four jumps at an
in-bounds empty cell with the corresponding guards satisfied. -/
theorem gp_extensions_inv (p e : GridPegSolitairePuzzle)
    (he : e ∈ GridPegSolitairePuzzle.extensions p) :
    e.marker_set = p.marker_set ∧
    ∃ y x, y < p.marker.length ∧ x < (p.marker.getD 0 []).length ∧
      cellAt p.marker y x = '.' ∧
      ((x + 2 < (p.marker.getD 0 []).length
          ∧ cellAt p.marker y (x + 1) = '*' ∧ cellAt p.marker y (x + 2) = '*'
          ∧ e.marker = setCell (setCell (setCell p.marker y x '*') y (x + 1) '.') y (x + 2) '.')
        ∨ (2 ≤ x ∧ cellAt p.marker y (x - 1) = '*' ∧ cellAt p.marker y (x - 2) = '*'
          ∧ e.marker = setCell (setCell (setCell p.marker y (x - 2) '.') y (x - 1) '.') y x '*')
        ∨ (y + 2 < p.marker.length
          ∧ cellAt p.marker (y + 1) x = '*' ∧ cellAt p.marker (y + 2) x = '*'
          ∧ e.marker = setCell (setCell (setCell p.marker y x '*') (y + 1) x '.') (y + 2) x '.')
        ∨ (2 ≤ y ∧ cellAt p.marker (y - 1) x = '*' ∧ cellAt p.marker (y - 2) x = '*'
          ∧ e.marker = setCell (setCell (setCell p.marker (y - 2) x '.') (y - 1) x '.') y x '*')) := by
  rcases List.mem_flatMap.mp he with ⟨y, hy, h1⟩
  rcases List.mem_flatMap.mp h1 with ⟨x, hx, h2⟩
  rw [List.mem_range] at hy
  rw [List.mem_range] at hx
  by_cases hdot : cellAt p.marker y x = '.'
  case neg => rw [if_neg hdot] at h2; simp at h2
  rw [if_pos hdot] at h2
  have grab : ∀ (cond : Prop) [Decidable cond] (v : GridPegSolitairePuzzle),
      e ∈ (if cond then [v] else []) → cond ∧ e = v := by
    intro cond inst v hmem
    by_cases hcond : cond
    · rw [if_pos hcond] at hmem
      exact ⟨hcond, List.mem_singleton.mp hmem⟩
    · rw [if_neg hcond] at hmem
      simp at hmem
  rcases List.mem_append.mp h2 with h3 | hup
  · rcases List.mem_append.mp h3 with h4 | hdown
    · rcases List.mem_append.mp h4 with hright | hleft
      · -- jump from the right
        by_cases hg : x + 2 < (p.marker.getD 0 []).length
        case neg => rw [if_neg hg] at hright; simp at hright
        rw [if_pos hg] at hright
        rcases grab _ _ hright with ⟨⟨hs1, hs2⟩, rfl⟩
        exact ⟨rfl, y, x, hy, hx, hdot, Or.inl ⟨hg, hs1, hs2, rfl⟩⟩
      · -- jump from the left
        by_cases hg : 2 ≤ x
        case neg => rw [if_neg hg] at hleft; simp at hleft
        rw [if_pos hg] at hleft
        rcases grab _ _ hleft with ⟨⟨hs1, hs2⟩, rfl⟩
        exact ⟨rfl, y, x, hy, hx, hdot, Or.inr (Or.inl ⟨hg, hs1, hs2, rfl⟩)⟩
    · -- jump from below
      by_cases hg : y + 2 < p.marker.length
      case neg => rw [if_neg hg] at hdown; simp at hdown
      rw [if_pos hg] at hdown
      rcases grab _ _ hdown with ⟨⟨hs1, hs2⟩, rfl⟩
      exact ⟨rfl, y, x, hy, hx, hdot, Or.inr (Or.inr (Or.inl ⟨hg, hs1, hs2, rfl⟩))⟩
  · -- jump from above
    by_cases hg : 2 ≤ y
    case neg => rw [if_neg hg] at hup; simp at hup
    rw [if_pos hg] at hup
    rcases grab _ _ hup with ⟨⟨hs1, hs2⟩, rfl⟩
    exact ⟨rfl, y, x, hy, hx, hdot, Or.inr (Or.inr (Or.inr ⟨hg, hs1, hs2, rfl⟩))⟩

/-- In-bounds `getElem` agrees with `getD`. -/
theorem getElem_eq_getD {β : Type} :
    ∀ (l : List β) (i : Nat) (d : β) (h : i < l.length), l[i] = l.getD i d
  | _ :: _, 0, _, _ => rfl
  | _ :: t, i + 1, d, h => getElem_eq_getD t i d (by simpa using h)

/-- A grid with the same row count and row lengths as a uniform grid is
itself uniform. -/
theorem uniform_of_rowlens {g1 g2 : List (List Char)}
    (hlen : g2.length = g1.length)
    (hrows : ∀ j, (g2.getD j []).length = (g1.getD j []).length)
    (hu : UniformRows g1) : UniformRows g2 := by
  intro r hr
  rcases List.mem_iff_getElem.mp hr with ⟨i, hi, rfl⟩
  rw [getElem_eq_getD g2 i [] hi, hrows i, hrows 0]
  exact hu (g1.getD i []) (getD_mem g1 i [] (by omega))

/-- Every peg-solitaire extension keeps the number of rows and every row
length of the marker grid. -/
theorem gp_ext_shape (p e : GridPegSolitairePuzzle)
    (he : e ∈ GridPegSolitairePuzzle.extensions p) :
    e.marker.length = p.marker.length
      ∧ ∀ j, (e.marker.getD j []).length = (p.marker.getD j []).length := by
  rcases gp_extensions_inv p e he with ⟨_, y, x, _, _, _, hcase⟩
  rcases hcase with ⟨_, _, _, hm⟩ | ⟨_, _, _, hm⟩ | ⟨_, _, _, hm⟩ | ⟨_, _, _, hm⟩ <;>
    exact ⟨by rw [hm, length_setCell, length_setCell, length_setCell],
      fun j => by rw [hm, rowlen_setCell, rowlen_setCell, rowlen_setCell]⟩

/-- Every peg-solitaire extension of a uniform grid removes exactly one
peg. -/
theorem gp_ext_starCount (p : GridPegSolitairePuzzle) (hu : UniformRows p.marker)
    (e : GridPegSolitairePuzzle) (he : e ∈ GridPegSolitairePuzzle.extensions p) :
    starCount p.marker = starCount e.marker + 1 := by
  rcases gp_extensions_inv p e he with ⟨_, y, x, hy, hx, hdot, hcase⟩
  have hrow : ∀ j, j < p.marker.length →
      (p.marker.getD j []).length = (p.marker.getD 0 []).length :=
    fun j hj => hu (p.marker.getD j []) (getD_mem p.marker j [] hj)
  rcases hcase with ⟨hg, hs1, hs2, hm⟩ | ⟨hg, hs1, hs2, hm⟩
    | ⟨hg, hs1, hs2, hm⟩ | ⟨hg, hs1, hs2, hm⟩
  · rw [hm, ← starCount_jump1 p.marker y x y (x + 1) y (x + 2) hy
      (by rw [hrow y hy]; omega) hy (by rw [hrow y hy]; omega) hy
      (by rw [hrow y hy]; omega)
      (Or.inr (by omega)) (Or.inr (by omega)) (Or.inr (by omega)) hdot hs1 hs2]
  · rw [hm, ← starCount_jump2 p.marker y x y (x - 2) y (x - 1) hy
      (by rw [hrow y hy]; omega) hy (by rw [hrow y hy]; omega) hy
      (by rw [hrow y hy]; omega)
      (Or.inr (by omega)) (Or.inr (by omega)) (Or.inr (by omega)) hdot hs2 hs1]
  · rw [hm, ← starCount_jump1 p.marker y x (y + 1) x (y + 2) x hy
      (by rw [hrow y hy]; omega) (by omega) (by rw [hrow (y + 1) (by omega)]; omega)
      (by omega) (by rw [hrow (y + 2) (by omega)]; omega)
      (Or.inl (by omega)) (Or.inl (by omega)) (Or.inl (by omega)) hdot hs1 hs2]
  · rw [hm, ← starCount_jump2 p.marker y x (y - 2) x (y - 1) x hy
      (by rw [hrow y hy]; omega) (by omega) (by rw [hrow (y - 2) (by omega)]; omega)
      (by omega) (by rw [hrow (y - 1) (by omega)]; omega)
      (Or.inl (by omega)) (Or.inl (by omega)) (Or.inl (by omega)) hdot hs2 hs1]

/-- Peg-solitaire extensions of a uniform grid keep it uniform. -/
theorem gp_ext_uniform (p e : GridPegSolitairePuzzle)
    (he : e ∈ GridPegSolitairePuzzle.extensions p) (hu : UniformRows p.marker) :
    UniformRows e.marker := by
  rcases gp_ext_shape p e he with ⟨h1, h2⟩
  exact uniform_of_rowlens h1 h2 hu

/-- C10: every peg-solitaire extension has exactly one `*` fewer than the
configuration it extends, so along any extension chain the peg count
drops by one per edge, and a chain ending in a solved configuration (one
peg left) has as many configurations as the initial grid has pegs. -/
theorem c10_peg_decrement :
    (∀ (p : GridPegSolitairePuzzle), UniformRows p.marker →
      ∀ e ∈ GridPegSolitairePuzzle.extensions p,
        starCount p.marker = starCount e.marker + 1)
    ∧ (∀ (l : List GridPegSolitairePuzzle) (p z : GridPegSolitairePuzzle),
        List.Chain' (fun a b => b ∈ GridPegSolitairePuzzle.extensions a) l →
        l.head? = some p → UniformRows p.marker → l.getLast? = some z →
        starCount p.marker = starCount z.marker + (l.length - 1)
          ∧ (gpImpl.is_solved z = true → l.length = starCount p.marker)) := by
  constructor
  · exact fun p hu e he => gp_ext_starCount p hu e he
  · intro l
    induction l with
    | nil => intro p z _ hp _ _; simp at hp
    | cons a t iht =>
      intro p z hch hp hu hz
      cases Option.some.inj hp
      match t, hch, hz with
      | [], _, hz =>
        have hza : a = z := by simpa using hz
        cases hza
        refine ⟨by simp, fun hs => ?_⟩
        have h1 : starCount a.marker = 1 := by
          simp only [gpImpl, beq_iff_eq] at hs
          exact hs
        simp [h1]
      | b :: t1, hch, hz =>
        have hrel := (List.chain'_cons'.mp hch).1 b rfl
        have hch1 := (List.chain'_cons'.mp hch).2
        have hub := gp_ext_uniform a b hrel hu
        have hstep := gp_ext_starCount a hu b hrel
        have hz1 : (b :: t1).getLast? = some z := by
          rw [← List.getLast?_cons_cons]
          exact hz
        rcases iht b z hch1 rfl hub hz1 with ⟨heq, hsol⟩
        refine ⟨?_, fun hs => ?_⟩
        · simp only [List.length_cons] at heq ⊢
          omega
        · have := hsol hs
          simp only [List.length_cons] at this ⊢
          omega

/-- Witness for C10 at a concrete one-row grid `* * .`: the single jump
yields `. . *`, one peg fewer. -/
theorem c10_witness :
    UniformRows [['*', '*', '.']]
    ∧ (⟨[['.', '.', '*']], ['*', '.', '#']⟩ : GridPegSolitairePuzzle)
        ∈ GridPegSolitairePuzzle.extensions ⟨[['*', '*', '.']], ['*', '.', '#']⟩
    ∧ starCount [['*', '*', '.']] = starCount [['.', '.', '*']] + 1 :=
  ⟨by unfold UniformRows; decide, by decide,
    c10_peg_decrement.1 ⟨[['*', '*', '.']], ['*', '.', '#']⟩
      (by unfold UniformRows; decide)
      ⟨[['.', '.', '*']], ['*', '.', '#']⟩ (by decide)⟩

/-- Inversion for `WordLadderPuzzle.extensions`: every extension keeps the
target word and word set, and its from-word substitutes a different
character at one in-bounds position. -/
theorem wl_extensions_inv (p e : WordLadderPuzzle)
    (he : e ∈ WordLadderPuzzle.extensions p) :
    e.to_word = p.to_word ∧ e.word_set = p.word_set ∧
    ∃ i c, i < p.from_word.length ∧ p.from_word.getD i c ≠ c ∧
      e.from_word = p.from_word.take i ++ c :: p.from_word.drop (i + 1) := by
  rcases List.mem_flatMap.mp he with ⟨i, hi, h1⟩
  rcases List.mem_flatMap.mp h1 with ⟨c, _, h2⟩
  rw [List.mem_range] at hi
  by_cases hci : p.from_word.getD i c ≠ c
  · rw [if_pos hci] at h2
    dsimp only at h2
    by_cases hmem : p.from_word.take i ++ c :: p.from_word.drop (i + 1) ∈ p.word_set
        ∧ p.from_word.take i ++ c :: p.from_word.drop (i + 1) ∉ p.path
    · rw [if_pos hmem] at h2
      rcases List.mem_singleton.mp h2 with rfl
      exact ⟨rfl, rfl, i, c, hi, hci, rfl⟩
    · rw [if_neg hmem] at h2
      simp at h2
  · rw [if_neg hci] at h2
    simp at h2

/-- `getD` just past a left factor reads the following element. -/
theorem getD_append_len {γ : Type} :
    ∀ (a : List γ) (c : γ) (b : List γ) (d : γ), (a ++ c :: b).getD a.length d = c
  | [], _, _, _ => rfl
  | _ :: t, c, b, d => getD_append_len t c b d

/-- A word-ladder extension's from-word differs from its parent's. -/
theorem wl_ext_from_ne (p e : WordLadderPuzzle)
    (he : e ∈ WordLadderPuzzle.extensions p) : e.from_word ≠ p.from_word := by
  rcases wl_extensions_inv p e he with ⟨_, _, i, c, hi, hci, hfrom⟩
  intro heq
  rw [hfrom] at heq
  have hlen : (p.from_word.take i).length = i := by
    rw [List.length_take]
    omega
  have h1 := getD_append_len (p.from_word.take i) c (p.from_word.drop (i + 1)) c
  rw [hlen, heq] at h1
  exact hci h1

/-- Inversion for `MNPuzzle.extensions`: every extension keeps the target
grid and swaps the in-bounds blank with one of its four neighbours. -/
theorem mn_extensions_inv (p e : MNPuzzle) (he : e ∈ MNPuzzle.extensions p) :
    e.to_grid = p.to_grid ∧
    ∃ y x, y < p.from_grid.length ∧ x < (p.from_grid.getD 0 []).length ∧
      cellAt p.from_grid y x = '*' ∧
      ((x + 1 < (p.from_grid.getD 0 []).length
          ∧ e.from_grid
            = setCell (setCell p.from_grid y x (cellAt p.from_grid y (x + 1))) y (x + 1) '*')
        ∨ (1 ≤ x
          ∧ e.from_grid
            = setCell (setCell p.from_grid y x (cellAt p.from_grid y (x - 1))) y (x - 1) '*')
        ∨ (y + 1 < p.from_grid.length
          ∧ e.from_grid
            = setCell (setCell p.from_grid y x (cellAt p.from_grid (y + 1) x)) (y + 1) x '*')
        ∨ (1 ≤ y
          ∧ e.from_grid
            = setCell (setCell p.from_grid y x (cellAt p.from_grid (y - 1) x)) (y - 1) x '*')) := by
  rcases List.mem_flatMap.mp he with ⟨y, hy, h1⟩
  rcases List.mem_flatMap.mp h1 with ⟨x, hx, h2⟩
  rw [List.mem_range] at hy
  rw [List.mem_range] at hx
  by_cases hstar : cellAt p.from_grid y x = '*'
  case neg => rw [if_neg hstar] at h2; simp at h2
  rw [if_pos hstar] at h2
  have grab : ∀ (cond : Prop) [Decidable cond] (v : MNPuzzle),
      e ∈ (if cond then [v] else []) → cond ∧ e = v := by
    intro cond inst v hmem
    by_cases hcond : cond
    · rw [if_pos hcond] at hmem
      exact ⟨hcond, List.mem_singleton.mp hmem⟩
    · rw [if_neg hcond] at hmem
      simp at hmem
  rcases List.mem_append.mp h2 with h3 | hup
  · rcases List.mem_append.mp h3 with h4 | hdown
    · rcases List.mem_append.mp h4 with hright | hleft
      · rcases grab _ _ hright with ⟨hg, rfl⟩
        exact ⟨rfl, y, x, hy, hx, hstar, Or.inl ⟨hg, rfl⟩⟩
      · rcases grab _ _ hleft with ⟨hg, rfl⟩
        exact ⟨rfl, y, x, hy, hx, hstar, Or.inr (Or.inl ⟨hg, rfl⟩)⟩
    · rcases grab _ _ hdown with ⟨hg, rfl⟩
      exact ⟨rfl, y, x, hy, hx, hstar, Or.inr (Or.inr (Or.inl ⟨hg, rfl⟩))⟩
  · rcases grab _ _ hup with ⟨hg, rfl⟩
    exact ⟨rfl, y, x, hy, hx, hstar, Or.inr (Or.inr (Or.inr ⟨hg, rfl⟩))⟩

/-- A grid with an in-bounds `*` cell has at least one peg. -/
theorem one_star_le (g : List (List Char)) (y x : Nat)
    (hy : y < g.length) (hx : x < (g.getD y []).length)
    (h : cellAt g y x = '*') : 1 ≤ starCount g := by
  have hmem : '*' ∈ g.getD y [] := by
    rw [← h, cellAt]
    exact getD_mem _ x '#' hx
  have hcount : 1 ≤ (g.getD y []).count '*' := List.count_pos_iff.mpr hmem
  have hrow : (g.getD y []).count '*' ∈ g.map (fun r => r.count '*') :=
    List.mem_map.mpr ⟨g.getD y [], getD_mem g y [] hy, rfl⟩
  exact Nat.le_trans hcount (List.single_le_sum (fun _ _ => Nat.zero_le _) _ hrow)

/-- Two distinct in-bounds `*` cells force at least two pegs. -/
theorem two_stars_le (g : List (List Char)) (y1 x1 y2 x2 : Nat)
    (hy1 : y1 < g.length) (hx1 : x1 < (g.getD y1 []).length)
    (hy2 : y2 < g.length) (hx2 : x2 < (g.getD y2 []).length)
    (hne : y2 ≠ y1 ∨ x2 ≠ x1)
    (h1 : cellAt g y1 x1 = '*') (h2 : cellAt g y2 x2 = '*') :
    2 ≤ starCount g := by
  have s1 := starCount_setCell g y1 x1 '.' hy1 hx1
  rw [h1, if_pos rfl, if_neg (by decide : ¬(('.' : Char) = '*'))] at s1
  have h2' : cellAt (setCell g y1 x1 '.') y2 x2 = '*' := by
    rw [cellAt_setCell_ne g y1 x1 y2 x2 '.' hne]
    exact h2
  have hle := one_star_le (setCell g y1 x1 '.') y2 x2
    (by rw [length_setCell]; exact hy2) (by rw [rowlen_setCell]; exact hx2) h2'
  omega

/-- `intersperse` is injective: the interspersed list determines both the
length and the elements at the even positions. -/
theorem intersperse_inj {γ : Type} (s : γ) :
    ∀ (r1 r2 : List γ), List.intersperse s r1 = List.intersperse s r2 → r1 = r2
  | [], [], _ => rfl
  | [], [_], h => by simp [List.intersperse] at h
  | [_], [], h => by simp [List.intersperse] at h
  | [], b :: c :: t, h => by
    rw [show List.intersperse s (b :: c :: t) = b :: s :: List.intersperse s (c :: t)
        from rfl] at h
    exact absurd h (by simp [List.intersperse])
  | b :: c :: t, [], h => by
    rw [show List.intersperse s (b :: c :: t) = b :: s :: List.intersperse s (c :: t)
        from rfl] at h
    exact absurd h (by simp [List.intersperse])
  | [a], [b], h => by simpa [List.intersperse] using h
  | [a], b :: c :: t, h => by
    rw [show List.intersperse s [a] = [a] from rfl,
      show List.intersperse s (b :: c :: t) = b :: s :: List.intersperse s (c :: t)
        from rfl] at h
    simp at h
  | a :: b :: t, [c], h => by
    rw [show List.intersperse s [c] = [c] from rfl,
      show List.intersperse s (a :: b :: t) = a :: s :: List.intersperse s (b :: t)
        from rfl] at h
    simp at h
  | a :: b :: t, c :: d :: u, h => by
    rw [show List.intersperse s (a :: b :: t) = a :: s :: List.intersperse s (b :: t)
        from rfl,
      show List.intersperse s (c :: d :: u) = c :: s :: List.intersperse s (d :: u)
        from rfl] at h
    rcases List.cons.inj h with ⟨rfl, h1⟩
    rcases List.cons.inj h1 with ⟨-, h2⟩
    rw [intersperse_inj s (b :: t) (d :: u) h2]

/-- The length of an interspersed list is determined by the original
length. -/
theorem length_intersperse {γ : Type} (s : γ) :
    ∀ (l : List γ), (List.intersperse s l).length
      = (if l.length = 0 then 0 else 2 * l.length - 1)
  | [] => rfl
  | [_] => rfl
  | a :: b :: t => by
    rw [show List.intersperse s (a :: b :: t) = a :: s :: List.intersperse s (b :: t)
        from rfl]
    have ih := length_intersperse s (b :: t)
    simp only [List.length_cons] at ih ⊢
    rw [if_neg (Nat.succ_ne_zero _)] at ih
    rw [if_neg (Nat.succ_ne_zero _)]
    omega

/-- Rows of equal length render to equal-length character lists. -/
theorem renderRow_length_eq (r1 r2 : List Char) (h : r1.length = r2.length) :
    (renderRow r1).length = (renderRow r2).length := by
  simp only [renderRow, List.length_append, length_intersperse, h]

/-- Rendering is injective on grids of the same shape (same row count and
row lengths). -/
theorem renderGrid_inj_shape :
    ∀ (g1 g2 : List (List Char)), g1.length = g2.length →
      (∀ j, (g1.getD j []).length = (g2.getD j []).length) →
      renderGrid g1 = renderGrid g2 → g1 = g2
  | [], [], _, _, _ => rfl
  | [], _ :: _, h, _, _ => absurd h (by simp)
  | _ :: _, [], h, _, _ => absurd h (by simp)
  | r1 :: t1, r2 :: t2, hlen, hrows, heq => by
    have hr : (renderRow r1).length = (renderRow r2).length :=
      renderRow_length_eq r1 r2 (hrows 0)
    rw [show renderGrid (r1 :: t1) = renderRow r1 ++ renderGrid t1 from rfl,
      show renderGrid (r2 :: t2) = renderRow r2 ++ renderGrid t2 from rfl] at heq
    rcases List.append_inj heq hr with ⟨hrow, hrest⟩
    have hint : List.intersperse spaceChar r1 = List.intersperse spaceChar r2 :=
      (List.append_inj' hrow (by simp)).1
    rw [intersperse_inj spaceChar r1 r2 hint,
      renderGrid_inj_shape t1 t2 (by simpa using hlen) (fun j => hrows (j + 1)) hrest]

/-- Distinct grids of the same shape have distinct rendered strings. -/
theorem str_ne_of_grid_ne (g1 g2 : List (List Char))
    (hlen : g1.length = g2.length)
    (hrows : ∀ j, (g1.getD j []).length = (g2.getD j []).length)
    (hne : g1 ≠ g2) : String.mk (renderGrid g1) ≠ String.mk (renderGrid g2) :=
  fun h => hne (renderGrid_inj_shape g1 g2 hlen hrows
    (by simpa [String.ext_iff] using h))

/-- Every sliding-puzzle extension keeps the number of rows and every row
length of the from-grid. -/
theorem mn_ext_shape (p e : MNPuzzle) (he : e ∈ MNPuzzle.extensions p) :
    e.from_grid.length = p.from_grid.length
      ∧ ∀ j, (e.from_grid.getD j []).length = (p.from_grid.getD j []).length := by
  rcases mn_extensions_inv p e he with ⟨_, y, x, _, _, _, hcase⟩
  rcases hcase with ⟨_, hm⟩ | ⟨_, hm⟩ | ⟨_, hm⟩ | ⟨_, hm⟩ <;>
    exact ⟨by rw [hm, length_setCell, length_setCell],
      fun j => by rw [hm, rowlen_setCell, rowlen_setCell]⟩

/-- C6, amended: no extension is canonical-string-equal to its parent, for
word ladders always, and for the grid puzzles on constructor-valid
(uniform-row) grids with, in the sliding puzzle's case, at most one blank
`*` (two adjacent blanks swap into an identical grid). -/
theorem c6_amended :
    (∀ (p : WordLadderPuzzle), ∀ e ∈ WordLadderPuzzle.extensions p, wlStr e ≠ wlStr p)
    ∧ (∀ (p : MNPuzzle), UniformRows p.from_grid → starCount p.from_grid ≤ 1 →
        ∀ e ∈ MNPuzzle.extensions p, mnStr e ≠ mnStr p)
    ∧ (∀ (p : GridPegSolitairePuzzle), UniformRows p.marker →
        ∀ e ∈ GridPegSolitairePuzzle.extensions p, gpStr e ≠ gpStr p) := by
  refine ⟨?_, ?_, ?_⟩
  · intro p e he heq
    rcases wl_extensions_inv p e he with ⟨hto, _, _⟩
    simp only [wlStr, String.ext_iff, hto] at heq
    have h1 := List.append_cancel_right heq
    have h2 := List.append_cancel_right h1
    have h3 := List.append_cancel_left h2
    exact wl_ext_from_ne p e he h3
  · intro p hu hle e he
    rcases mn_extensions_inv p e he with ⟨_, y, x, hy, hx, hstar, hcase⟩
    have hrow : ∀ j, j < p.from_grid.length →
        (p.from_grid.getD j []).length = (p.from_grid.getD 0 []).length :=
      fun j hj => hu (p.from_grid.getD j []) (getD_mem p.from_grid j [] hj)
    rcases mn_ext_shape p e he with ⟨hlen, hrows⟩
    have hne : e.from_grid ≠ p.from_grid := by
      intro heqg
      rcases hcase with ⟨hg, hm⟩ | ⟨hg, hm⟩ | ⟨hg, hm⟩ | ⟨hg, hm⟩
      · have hcell : cellAt e.from_grid y (x + 1) = '*' := by
          rw [hm]
          exact cellAt_setCell_self _ y (x + 1) '*' (by rw [length_setCell]; exact hy)
            (by rw [rowlen_setCell, hrow y hy]; omega)
        rw [heqg] at hcell
        have := two_stars_le p.from_grid y x y (x + 1) hy
          (by rw [hrow y hy]; omega) hy (by rw [hrow y hy]; omega)
          (Or.inr (by omega)) hstar hcell
        omega
      · have hcell : cellAt e.from_grid y (x - 1) = '*' := by
          rw [hm]
          exact cellAt_setCell_self _ y (x - 1) '*' (by rw [length_setCell]; exact hy)
            (by rw [rowlen_setCell, hrow y hy]; omega)
        rw [heqg] at hcell
        have := two_stars_le p.from_grid y x y (x - 1) hy
          (by rw [hrow y hy]; omega) hy (by rw [hrow y hy]; omega)
          (Or.inr (by omega)) hstar hcell
        omega
      · have hcell : cellAt e.from_grid (y + 1) x = '*' := by
          rw [hm]
          exact cellAt_setCell_self _ (y + 1) x '*' (by rw [length_setCell]; omega)
            (by rw [rowlen_setCell, hrow (y + 1) (by omega)]; omega)
        rw [heqg] at hcell
        have := two_stars_le p.from_grid y x (y + 1) x hy
          (by rw [hrow y hy]; omega) (by omega)
          (by rw [hrow (y + 1) (by omega)]; omega)
          (Or.inl (by omega)) hstar hcell
        omega
      · have hcell : cellAt e.from_grid (y - 1) x = '*' := by
          rw [hm]
          exact cellAt_setCell_self _ (y - 1) x '*' (by rw [length_setCell]; omega)
            (by rw [rowlen_setCell, hrow (y - 1) (by omega)]; omega)
        rw [heqg] at hcell
        have := two_stars_le p.from_grid y x (y - 1) x hy
          (by rw [hrow y hy]; omega) (by omega)
          (by rw [hrow (y - 1) (by omega)]; omega)
          (Or.inl (by omega)) hstar hcell
        omega
    exact str_ne_of_grid_ne e.from_grid p.from_grid hlen hrows hne
  · intro p hu e he
    rcases gp_extensions_inv p e he with ⟨_, y, x, hy, hx, hdot, hcase⟩
    have hrow : ∀ j, j < p.marker.length →
        (p.marker.getD j []).length = (p.marker.getD 0 []).length :=
      fun j hj => hu (p.marker.getD j []) (getD_mem p.marker j [] hj)
    rcases gp_ext_shape p e he with ⟨hlen, hrows⟩
    have hne : e.marker ≠ p.marker := by
      intro heqg
      have hxy : x < (p.marker.getD y []).length := by
        rw [hrow y hy]; exact hx
      have hcell : cellAt e.marker y x = '*' := by
        rcases hcase with ⟨hg, _, _, hm⟩ | ⟨hg, _, _, hm⟩ | ⟨hg, _, _, hm⟩ | ⟨hg, _, _, hm⟩
        · rw [hm, cellAt_setCell_ne _ y (x + 2) y x '.' (Or.inr (by omega)),
            cellAt_setCell_ne _ y (x + 1) y x '.' (Or.inr (by omega))]
          exact cellAt_setCell_self p.marker y x '*' hy hxy
        · exact hm ▸ cellAt_setCell_self _ y x '*'
            (by rw [length_setCell, length_setCell]; exact hy)
            (by rw [rowlen_setCell, rowlen_setCell]; exact hxy)
        · rw [hm, cellAt_setCell_ne _ (y + 2) x y x '.' (Or.inl (by omega)),
            cellAt_setCell_ne _ (y + 1) x y x '.' (Or.inl (by omega))]
          exact cellAt_setCell_self p.marker y x '*' hy hxy
        · exact hm ▸ cellAt_setCell_self _ y x '*'
            (by rw [length_setCell, length_setCell]; exact hy)
            (by rw [rowlen_setCell, rowlen_setCell]; exact hxy)
      rw [heqg, hdot] at hcell
      exact absurd hcell (by decide)
    exact str_ne_of_grid_ne e.marker p.marker hlen hrows hne

/-- Witness for C6 on the concrete ok -> ko word ladder: the extension
"kk" -> "ko" has a different canonical string from its parent. -/
theorem c6_witness :
    wlKk ∈ WordLadderPuzzle.extensions wlOkKo ∧ wlStr wlKk ≠ wlStr wlOkKo :=
  ⟨by decide, c6_amended.1 wlOkKo wlKk (by decide)⟩

/-- Elements of an interspersed list are original elements or the
separator. -/
theorem mem_intersperse {γ : Type} (s : γ) :
    ∀ (l : List γ) (x : γ), x ∈ List.intersperse s l → x ∈ l ∨ x = s
  | [], _, h => by simp [List.intersperse] at h
  | [a], x, h => by
    rw [show List.intersperse s [a] = [a] from rfl] at h
    exact Or.inl h
  | a :: b :: t, x, h => by
    rw [show List.intersperse s (a :: b :: t) = a :: s :: List.intersperse s (b :: t)
        from rfl] at h
    rcases List.mem_cons.mp h with rfl | h
    · exact Or.inl (List.mem_cons_self _ _)
    · rcases List.mem_cons.mp h with rfl | h
      · exact Or.inr rfl
      · rcases mem_intersperse s (b :: t) x h with hx | hx
        · exact Or.inl (List.mem_cons_of_mem _ hx)
        · exact Or.inr hx

/-- Splitting two lists at the first occurrence of a marker absent from
both prefixes. -/
theorem eq_of_append_cons_eq {γ : Type} (z : γ) :
    ∀ (a1 a2 b1 b2 : List γ), z ∉ a1 → z ∉ a2 →
      a1 ++ z :: b1 = a2 ++ z :: b2 → a1 = a2 ∧ b1 = b2
  | [], [], _, _, _, _, h => ⟨rfl, by simpa using h⟩
  | [], a :: t, _, _, _, hz2, h => by
    simp only [List.nil_append, List.cons_append] at h
    rcases List.cons.inj h with ⟨rfl, -⟩
    exact absurd (List.mem_cons_self _ _) hz2
  | a :: t, [], _, _, hz1, _, h => by
    simp only [List.nil_append, List.cons_append] at h
    rcases List.cons.inj h with ⟨rfl, -⟩
    exact absurd (List.mem_cons_self _ _) (fun hm => hz1 hm)
  | a :: t1, c :: t2, b1, b2, hz1, hz2, h => by
    simp only [List.cons_append] at h
    rcases List.cons.inj h with ⟨rfl, h1⟩
    rcases eq_of_append_cons_eq z t1 t2 b1 b2 (fun hm => hz1 (List.mem_cons_of_mem _ hm))
      (fun hm => hz2 (List.mem_cons_of_mem _ hm)) h1 with ⟨rfl, rfl⟩
    exact ⟨rfl, rfl⟩

/-- A rendered row holds no newline before its terminator when its cells
are newline-free. -/
theorem newline_not_mem_intersperse (r : List Char)
    (h : ∀ c ∈ r, c ≠ newlineChar) :
    newlineChar ∉ List.intersperse spaceChar r := by
  intro hmem
  rcases mem_intersperse spaceChar r newlineChar hmem with hx | hx
  · exact h newlineChar hx rfl
  · exact absurd hx (by decide)

/-- Rendering is injective on newline-free grids of any shapes. -/
theorem renderGrid_inj_nonl :
    ∀ (g1 g2 : List (List Char)), NoNewlineCells g1 → NoNewlineCells g2 →
      renderGrid g1 = renderGrid g2 → g1 = g2
  | [], [], _, _, _ => rfl
  | [], r :: t, _, _, h => by
    rw [show renderGrid (r :: t) = (List.intersperse spaceChar r ++ [newlineChar])
        ++ renderGrid t from rfl] at h
    simp [renderGrid] at h
  | r :: t, [], _, _, h => by
    rw [show renderGrid (r :: t) = (List.intersperse spaceChar r ++ [newlineChar])
        ++ renderGrid t from rfl] at h
    simp [renderGrid] at h
  | r1 :: t1, r2 :: t2, h1, h2, heq => by
    rw [show renderGrid (r1 :: t1) = (List.intersperse spaceChar r1 ++ [newlineChar])
        ++ renderGrid t1 from rfl,
      show renderGrid (r2 :: t2) = (List.intersperse spaceChar r2 ++ [newlineChar])
        ++ renderGrid t2 from rfl,
      List.append_assoc, List.append_assoc, List.singleton_append,
      List.singleton_append] at heq
    rcases eq_of_append_cons_eq newlineChar _ _ _ _
      (newline_not_mem_intersperse r1 (h1 r1 (List.mem_cons_self _ _)))
      (newline_not_mem_intersperse r2 (h2 r2 (List.mem_cons_self _ _))) heq with
      ⟨hint, hrest⟩
    rw [intersperse_inj spaceChar r1 r2 hint,
      renderGrid_inj_nonl t1 t2 (fun r hr => h1 r (List.mem_cons_of_mem _ hr))
        (fun r hr => h2 r (List.mem_cons_of_mem _ hr)) hrest]

/-- Set-equality of a list with itself always holds. -/
theorem setEqv_refl {β : Type} [DecidableEq β] (l : List β) : setEqv l l = true := by
  simp only [setEqv, Bool.and_eq_true, List.all_eq_true, decide_eq_true_eq]
  exact ⟨fun x hx => hx, fun x hx => hx⟩

/-- C7, counterexample: two word ladders from 'a' to 'b' over different
word sets have equal canonical strings but are not equal under `__eq__`
(which compares the word sets `__str__` omits). -/
theorem c7_counterexample :
    wlStr ⟨['a'], ['b'], [], [['a']]⟩ = wlStr ⟨['a'], ['b'], [['z']], [['a']]⟩
    ∧ wlBeq ⟨['a'], ['b'], [], [['a']]⟩ ⟨['a'], ['b'], [['z']], [['a']]⟩ = false :=
  ⟨rfl, by decide⟩

/-- C7, amended: canonical strings decide equality exactly among
configurations sharing the auxiliary data `__eq__` compares but `__str__`
omits — the target word and word set for word ladders, the target grid for
the sliding puzzle, the marker set for peg solitaire — with grid cells
newline-free (true of the documented alphabets). -/
theorem c7_amended :
    (∀ (f1 f2 t : List Char) (ws pa1 pa2 : List (List Char)),
      wlStr ⟨f1, t, ws, pa1⟩ = wlStr ⟨f2, t, ws, pa2⟩
        ↔ wlBeq ⟨f1, t, ws, pa1⟩ ⟨f2, t, ws, pa2⟩ = true)
    ∧ (∀ (g1 g2 t : List (List Char)), NoNewlineCells g1 → NoNewlineCells g2 →
      (mnStr ⟨g1, t⟩ = mnStr ⟨g2, t⟩ ↔ mnBeq ⟨g1, t⟩ ⟨g2, t⟩ = true))
    ∧ (∀ (m1 m2 : List (List Char)) (ms : List Char),
      NoNewlineCells m1 → NoNewlineCells m2 →
      (gpStr ⟨m1, ms⟩ = gpStr ⟨m2, ms⟩ ↔ gpBeq ⟨m1, ms⟩ ⟨m2, ms⟩ = true)) := by
  refine ⟨?_, ?_, ?_⟩
  · intro f1 f2 t ws pa1 pa2
    constructor
    · intro h
      simp only [wlStr, String.ext_iff] at h
      have h1 := List.append_cancel_right h
      have h2 := List.append_cancel_right h1
      have h3 := List.append_cancel_left h2
      simp only [wlBeq, Bool.and_eq_true, beq_iff_eq]
      exact ⟨⟨h3, trivial⟩, setEqv_refl ws⟩
    · intro h
      simp only [wlBeq, Bool.and_eq_true, beq_iff_eq] at h
      rw [wlStr, wlStr, h.1.1]
  · intro g1 g2 t hn1 hn2
    constructor
    · intro h
      simp only [mnStr, String.ext_iff] at h
      have := renderGrid_inj_nonl g1 g2 hn1 hn2 h
      simp only [mnBeq, Bool.and_eq_true, beq_iff_eq]
      exact ⟨this, trivial⟩
    · intro h
      simp only [mnBeq, Bool.and_eq_true, beq_iff_eq] at h
      rw [mnStr, mnStr, h.1]
  · intro m1 m2 ms hn1 hn2
    constructor
    · intro h
      simp only [gpStr, String.ext_iff] at h
      have := renderGrid_inj_nonl m1 m2 hn1 hn2 h
      simp only [gpBeq, Bool.and_eq_true, beq_iff_eq]
      exact ⟨this, setEqv_refl ms⟩
    · intro h
      simp only [gpBeq, Bool.and_eq_true, beq_iff_eq] at h
      rw [gpStr, gpStr, h.1]

/-- Witness for C7 on concrete one-cell sliding grids `1` and `2` with a
shared target: equal strings coincide with equality, and the two grids
indeed compare (and render) differently. -/
theorem c7_witness :
    NoNewlineCells [['1']] ∧ NoNewlineCells [['2']]
    ∧ (mnStr ⟨[['1']], [['1']]⟩ = mnStr ⟨[['2']], [['1']]⟩
        ↔ mnBeq ⟨[['1']], [['1']]⟩ ⟨[['2']], [['1']]⟩ = true)
    ∧ mnBeq ⟨[['1']], [['1']]⟩ ⟨[['2']], [['1']]⟩ = false :=
  ⟨by unfold NoNewlineCells; decide, by unfold NoNewlineCells; decide,
    c7_amended.2.1 [['1']] [['2']] [['1']]
      (by unfold NoNewlineCells; decide) (by unfold NoNewlineCells; decide),
    by decide⟩

/-- Every state chain is a canon chain. -/
theorem isCanonChain_of_isStateChain {α : Type} (P : PuzzleImpl α) (l : List α)
    (h : IsStateChain P l) : IsCanonChain P l :=
  List.Chain'.imp (fun _ _ hab => List.mem_map.mpr ⟨_, hab, rfl⟩) h

/-- Canon chains are closed under taking the part after any split. -/
theorem isCanonChain_of_append {α : Type} (P : PuzzleImpl α) (a b : List α)
    (h : IsCanonChain P (a ++ b)) : IsCanonChain P b :=
  ((List.chain'_append.mp h).2).1

/-- The relation holds between any two consecutive elements of a chain. -/
theorem chain_rel_of_split {α : Type} (P : PuzzleImpl α) (l a b : List α)
    (z w : α) (h : IsCanonChain P l) (hsplit : l = a ++ z :: w :: b) :
    P.canon w ∈ (P.extensions z).map P.canon := by
  rw [hsplit] at h
  have h2 := isCanonChain_of_append P a (z :: w :: b) h
  exact (List.chain'_cons'.mp h2).1 w rfl

/-- A list ending in a one-element tail has that element as its last. -/
theorem getLast?_of_concat {γ : Type} (a : List γ) (z : γ) :
    (a ++ [z]).getLast? = some z := by
  rw [List.getLast?_append_of_ne_nil a (by simp)]
  rfl

/-- Distinctness under a map separates a split element from everything
after it. -/
theorem map_nodup_split_ne {γ δ : Type} (f : γ → δ) (l a b : List γ) (z : γ)
    (hnodup : (l.map f).Nodup) (hsplit : l = a ++ z :: b) :
    ∀ u ∈ b, f u ≠ f z := by
  intro u hu heq
  rw [hsplit, List.map_append, List.map_cons] at hnodup
  have h2 := (List.nodup_append.mp hnodup).2.1
  rcases List.nodup_cons.mp h2 with ⟨hz, _⟩
  exact hz (heq ▸ List.mem_map.mpr ⟨u, hu, rfl⟩)

/-- Every member of `dropLast` splits the list with a non-empty
remainder. -/
theorem mem_dropLast_split {γ : Type} :
    ∀ (l : List γ) (x : γ), x ∈ l.dropLast → ∃ a b, l = a ++ x :: b ∧ b ≠ []
  | [], _, h => absurd h (by simp)
  | [_], _, h => absurd h (by simp)
  | a :: b :: t, x, h => by
    rw [show (a :: b :: t).dropLast = a :: (b :: t).dropLast from rfl] at h
    rcases List.mem_cons.mp h with rfl | h
    · exact ⟨[], b :: t, rfl, by simp⟩
    · rcases mem_dropLast_split (b :: t) x h with ⟨a1, b1, heq, hne⟩
      exact ⟨a :: a1, b1, by rw [List.cons_append, ← heq], hne⟩

/-- Splitting a list with a non-empty remainder puts the split element in
`dropLast`. -/
theorem mem_dropLast_of_split {γ : Type} :
    ∀ (a : List γ) (x : γ) (b : List γ), b ≠ [] → x ∈ (a ++ x :: b).dropLast
  | [], x, b, hb => by
    match b with
    | c :: t => exact List.mem_cons_self _ _
  | a :: t, x, b, hb => by
    have ih := mem_dropLast_of_split t x b hb
    have hne : t ++ x :: b ≠ [] := by simp
    rw [List.cons_append, List.dropLast_cons_of_ne_nil hne]
    exact List.mem_cons_of_mem _ ih

/-- The last element survives appending on the left. -/
theorem getLast?_cons_of_ne_nil {γ : Type} (a : γ) (l : List γ) (h : l ≠ []) :
    (a :: l).getLast? = l.getLast? := by
  match l with
  | b :: t => exact List.getLast?_cons_cons

/-- Under a faithful canonical form, every canon chain from a state is
shadowed by a state chain with the same canonical strings. -/
theorem canonChain_to_stateChain {α : Type} (P : PuzzleImpl α) (HC : CanonFaithful P) :
    ∀ (l : List α) (s : α), IsCanonChain P (s :: l) →
      ∃ l1, IsStateChain P (s :: l1) ∧ l1.map P.canon = l.map P.canon := by
  intro l
  induction l with
  | nil => intro s _; exact ⟨[], List.chain'_singleton s, rfl⟩
  | cons b t ih =>
    intro s hch
    have hrel : P.canon b ∈ (P.extensions s).map P.canon :=
      (List.chain'_cons'.mp hch).1 b rfl
    rcases List.mem_map.mp hrel with ⟨e, he, hce⟩
    have hch2 : IsCanonChain P (e :: t) := by
      have hbt : IsCanonChain P (b :: t) := (List.chain'_cons'.mp hch).2
      match t with
      | [] => exact List.chain'_singleton e
      | c :: t1 =>
        refine List.chain'_cons'.mpr ⟨?_, (List.chain'_cons'.mp hbt).2⟩
        intro y hy
        cases hy
        rw [(HC e b hce).2.2]
        exact (List.chain'_cons'.mp hbt).1 c rfl
    rcases ih e hch2 with ⟨l1, hst, hmap⟩
    refine ⟨e :: l1, List.chain'_cons'.mpr ⟨fun y hy => by cases hy; exact he, hst⟩, ?_⟩
    simp only [List.map_cons, hmap, hce]

/-- Cutting a canon chain at its first solved configuration: the prefix up
to that point is a canon chain with the same head, whose last element is
solved, no earlier element solved, drawn from the original list. -/
theorem chain_cut_solved {α : Type} (P : PuzzleImpl α) :
    ∀ (q : List α), IsCanonChain P q →
      (∃ z, q.getLast? = some z ∧ P.is_solved z = true) →
      ∃ r, r ≠ [] ∧ IsCanonChain P r
        ∧ r.head? = q.head?
        ∧ (∃ z, r.getLast? = some z ∧ P.is_solved z = true)
        ∧ (∀ x ∈ r.dropLast, P.is_solved x = false)
        ∧ (∀ x ∈ r, x ∈ q)
        ∧ r.length ≤ q.length := by
  intro q
  induction q with
  | nil =>
    intro _ hz
    rcases hz with ⟨z, hz, _⟩
    simp at hz
  | cons a rest ih =>
    intro hch hz
    by_cases hsa : P.is_solved a = true
    · exact ⟨[a], by simp, List.chain'_singleton a, rfl, ⟨a, rfl, hsa⟩,
        by simp, by simp, by simp⟩
    · have hsa' : P.is_solved a = false := by
        cases h : P.is_solved a with
        | false => rfl
        | true => exact absurd h hsa
      match rest, hch, hz with
      | [], _, hz =>
        rcases hz with ⟨z, hz, hsz⟩
        rw [show ([a] : List α).getLast? = some a from rfl] at hz
        cases Option.some.inj hz
        exact absurd hsz hsa
      | b :: t, hch, hz =>
        have hch1 : IsCanonChain P (b :: t) := (List.chain'_cons'.mp hch).2
        have hz1 : ∃ z, (b :: t).getLast? = some z ∧ P.is_solved z = true := by
          rcases hz with ⟨z, hz, hsz⟩
          rw [List.getLast?_cons_cons] at hz
          exact ⟨z, hz, hsz⟩
        rcases ih hch1 hz1 with ⟨r1, hr1ne, hr1ch, hr1hd, hr1last, hr1mid, hr1sub, hr1len⟩
        refine ⟨a :: r1, by simp, ?_, rfl, ?_, ?_, ?_, ?_⟩
        · refine List.chain'_cons'.mpr ⟨?_, hr1ch⟩
          intro y hy
          rw [hr1hd] at hy
          cases hy
          exact (List.chain'_cons'.mp hch).1 b rfl
        · rw [getLast?_cons_of_ne_nil a r1 hr1ne]
          exact hr1last
        · intro x hx
          rw [List.dropLast_cons_of_ne_nil hr1ne] at hx
          rcases List.mem_cons.mp hx with rfl | hx
          · exact hsa'
          · exact hr1mid x hx
        · intro x hx
          rcases List.mem_cons.mp hx with rfl | hx
          · exact List.mem_cons_self _ _
          · exact List.mem_cons_of_mem _ (hr1sub x hx)
        · simp only [List.length_cons] at hr1len ⊢
          omega

/-- Removing canon-level cycles from a canon chain: some canon chain with
pairwise-distinct canonical strings keeps the head's and last's canonical
strings, draws its canonical strings from the original, and is no
longer. -/
theorem canon_dedup {α : Type} (P : PuzzleImpl α) (HC : CanonFaithful P) :
    ∀ (N : Nat) (q : List α), q.length ≤ N → IsCanonChain P q → q ≠ [] →
      ∃ r, r ≠ [] ∧ IsCanonChain P r ∧ (r.map P.canon).Nodup
        ∧ (∀ hq, q.head? = some hq → ∃ hr, r.head? = some hr ∧ P.canon hr = P.canon hq)
        ∧ (∀ lq, q.getLast? = some lq → ∃ lr, r.getLast? = some lr ∧ P.canon lr = P.canon lq)
        ∧ (∀ x ∈ r, ∃ y ∈ q, P.canon x = P.canon y)
        ∧ r.length ≤ q.length := by
  intro N
  induction N with
  | zero =>
    intro q hlen _ hne
    exact absurd (List.length_eq_zero.mp (Nat.le_zero.mp hlen)) hne
  | succ N ih =>
    intro q hlen hch hne
    match q, hne, hlen, hch with
    | a :: rest, _, hlen, hch =>
      by_cases hdup : P.canon a ∈ rest.map P.canon
      · rcases List.mem_map.mp hdup with ⟨v, hv, hcv⟩
        rcases List.append_of_mem hv with ⟨ys, zs, rfl⟩
        have hch' : IsCanonChain P (a :: zs) := by
          match zs with
          | [] => exact List.chain'_singleton a
          | w :: zs1 =>
            refine List.chain'_cons'.mpr ⟨?_, ?_⟩
            · intro y hy
              cases hy
              have hrel := chain_rel_of_split P (a :: (ys ++ v :: w :: zs1))
                (a :: ys) zs1 v w hch (by simp)
              rw [(HC v a hcv).2.2] at hrel
              exact hrel
            · exact isCanonChain_of_append P ((a :: ys) ++ [v]) (w :: zs1)
                (by simpa using hch)
        have hlen' : (a :: zs).length ≤ N := by
          simp only [List.length_cons, List.length_append] at hlen ⊢
          omega
        rcases ih (a :: zs) hlen' hch' (by simp) with
          ⟨r, hrne, hrch, hrnd, hrhd, hrlast, hrsub, hrlen⟩
        refine ⟨r, hrne, hrch, hrnd, ?_, ?_, ?_, ?_⟩
        · intro hq hhq
          cases Option.some.inj hhq
          exact hrhd a rfl
        · intro lq hlq
          match zs, hch', hlq, hrhd, hrlast, hrsub, hrlen with
          | [], _, hlq, hrhd, hrlast, hrsub, hrlen =>
            have hql : (a :: (ys ++ [v])).getLast? = some v := by
              rw [show a :: (ys ++ [v]) = (a :: ys) ++ [v] from by simp,
                getLast?_of_concat]
            rw [hql] at hlq
            cases Option.some.inj hlq
            rcases hrlast a rfl with ⟨lr, hlr, hclr⟩
            exact ⟨lr, hlr, by rw [hclr, ← hcv]⟩
          | w :: zs1, _, hlq, hrhd, hrlast, hrsub, hrlen =>
            have hql : (a :: (ys ++ v :: w :: zs1)).getLast? = (w :: zs1).getLast? := by
              rw [getLast?_cons_of_ne_nil a _ (by simp),
                show ys ++ v :: w :: zs1 = (ys ++ [v]) ++ w :: zs1 from by simp,
                List.getLast?_append_of_ne_nil _ (by simp)]
            rw [hql] at hlq
            apply hrlast
            rw [getLast?_cons_of_ne_nil a _ (by simp)]
            exact hlq
        · intro x hx
          rcases hrsub x hx with ⟨y, hy, hxy⟩
          rcases List.mem_cons.mp hy with rfl | hy
          · exact ⟨y, List.mem_cons_self _ _, hxy⟩
          · exact ⟨y, List.mem_cons_of_mem _
              (List.mem_append.mpr (Or.inr (List.mem_cons_of_mem _ hy))), hxy⟩
        · simp only [List.length_cons, List.length_append] at hrlen ⊢
          omega
      · match rest, hch, hlen, hdup with
        | [], _, _, _ =>
          refine ⟨[a], by simp, List.chain'_singleton a, by simp, ?_, ?_, ?_, ?_⟩
          · intro hq hhq
            cases Option.some.inj hhq
            exact ⟨a, rfl, rfl⟩
          · intro lq hlq
            cases Option.some.inj hlq
            exact ⟨a, rfl, rfl⟩
          · intro x hx
            rcases List.mem_singleton.mp hx with rfl
            exact ⟨x, List.mem_cons_self _ _, rfl⟩
          · simp
        | b :: t, hch, hlen, hdup =>
          have hch1 : IsCanonChain P (b :: t) := (List.chain'_cons'.mp hch).2
          have hlen1 : (b :: t).length ≤ N := by
            simp only [List.length_cons] at hlen ⊢
            omega
          rcases ih (b :: t) hlen1 hch1 (by simp) with
            ⟨r1, hr1ne, hr1ch, hr1nd, hr1hd, hr1last, hr1sub, hr1len⟩
          refine ⟨a :: r1, by simp, ?_, ?_, ?_, ?_, ?_, ?_⟩
          · refine List.chain'_cons'.mpr ⟨?_, hr1ch⟩
            intro y hy
            rcases hr1hd b rfl with ⟨hr, hhr, hc⟩
            rw [hhr] at hy
            cases hy
            rw [hc]
            exact (List.chain'_cons'.mp hch).1 b rfl
          · rw [List.map_cons]
            refine List.nodup_cons.mpr ⟨?_, hr1nd⟩
            intro hmem
            rcases List.mem_map.mp hmem with ⟨x, hx, hcx⟩
            rcases hr1sub x hx with ⟨y, hy, hxy⟩
            exact hdup (List.mem_map.mpr ⟨y, hy, by rw [← hxy, hcx]⟩)
          · intro hq hhq
            cases Option.some.inj hhq
            exact ⟨a, rfl, rfl⟩
          · intro lq hlq
            rw [List.getLast?_cons_cons] at hlq
            rcases hr1last lq hlq with ⟨lr, hlr, hclr⟩
            refine ⟨lr, ?_, hclr⟩
            rw [getLast?_cons_of_ne_nil a r1 hr1ne]
            exact hlr
          · intro x hx
            rcases List.mem_cons.mp hx with rfl | hx
            · exact ⟨x, List.mem_cons_self _ _, rfl⟩
            · rcases hr1sub x hx with ⟨y, hy, hxy⟩
              exact ⟨y, List.mem_cons_of_mem _ hy, hxy⟩
          · simp only [List.length_cons] at hr1len ⊢
            omega

/-- A relation holding between all pairs of members holds pairwise. -/
theorem pairwise_of_forall_mem {γ : Type} {R : γ → γ → Prop} :
    ∀ (l : List γ), (∀ a ∈ l, ∀ b ∈ l, R a b) → l.Pairwise R
  | [], _ => List.Pairwise.nil
  | a :: t, h =>
    List.Pairwise.cons (fun b hb => h a (List.mem_cons_self _ _) b (List.mem_cons_of_mem _ hb))
      (pairwise_of_forall_mem t
        (fun x hx y hy => h x (List.mem_cons_of_mem _ hx) y (List.mem_cons_of_mem _ hy)))

/-- Core invariant argument for BFS optimality.  Fix a canon chain `r`
with pairwise-distinct canonical strings, solved exactly at its end and
fail-fast-free before it.  If the queue is depth-sorted with spread at
most one and some queued node sits at the canonical string of the chain
position `x` at depth at most the number of chain elements before `x`,
with nothing from `x` on visited, then any tree the loop returns is no
longer than `r`. -/
theorem bfsLoop_bound {α : Type} (P : PuzzleImpl α) (HC : CanonFaithful P) (r : List α)
    (hchain : IsCanonChain P r) (hnodup : (r.map P.canon).Nodup)
    (hlast : ∀ z, r.getLast? = some z → P.is_solved z = true)
    (hmids : ∀ x ∈ r.dropLast, P.is_solved x = false)
    (hmidf : ∀ x ∈ r.dropLast, P.fail_fast x = false) :
    ∀ (fuel : Nat) (queue : List (BNode α)) (seen : List String),
      List.Pairwise (fun a b => depth a ≤ depth b ∧ depth b ≤ depth a + 1) queue →
      (∃ done x todo, r = done ++ x :: todo
        ∧ (∀ u ∈ x :: todo, P.canon u ∉ seen)
        ∧ ∃ n ∈ queue, P.canon (BNode.puzzle n) = P.canon x ∧ depth n ≤ done.length) →
      ∀ t, bfsLoop P fuel queue seen = SearchRes.found t →
        (chainList t).length ≤ r.length := by
  intro fuel
  induction fuel with
  | zero =>
    intro queue seen _ _ t hrun
    simp [bfsLoop] at hrun
  | succ fuel ih =>
    intro queue seen hpw hinv t hrun
    rcases hinv with ⟨done, x, todo, hsplit, hunseen, n, hnq, hcanon, hdep⟩
    match queue, hnq, hpw, hrun with
    | m :: rest, hnq, hpw, hrun =>
      have hdepm : depth m ≤ done.length := by
        rcases List.mem_cons.mp hnq with rfl | hnrest
        · exact hdep
        · exact Nat.le_trans ((List.pairwise_cons.mp hpw).1 n hnrest).1 hdep
      by_cases hsol : P.is_solved (BNode.puzzle m) = true
      · -- a solved node is dequeued: it is no deeper than the witness
        simp only [bfsLoop, bfsStep, hsol, if_true, if_pos] at hrun
        cases hrun
        rw [chainList_get_path, bnodePath_length]
        have hlenr : r.length = done.length + (x :: todo).length := by
          rw [hsplit, List.length_append]
        rcases List.mem_cons.mp hnq with rfl | hnrest
        · -- the witness itself was dequeued solved: it must be the chain's end
          have hx : P.is_solved x = true := by
            rw [← (HC (BNode.puzzle n) x hcanon).1]
            exact hsol
          match todo with
          | [] =>
            simp only [List.length_cons, List.length_nil] at hlenr
            omega
          | w :: todo1 =>
            exfalso
            have hmem : x ∈ r.dropLast := by
              rw [hsplit]
              exact mem_dropLast_of_split done x (w :: todo1) (by simp)
            rw [hmids x hmem] at hx
            exact Bool.false_ne_true hx
        · simp only [List.length_cons] at hlenr
          omega
      · have hsol' : P.is_solved (BNode.puzzle m) = false := by
          cases h : P.is_solved (BNode.puzzle m) with
          | false => rfl
          | true => exact absurd h hsol
        by_cases hseen : P.canon (BNode.puzzle m) ∈ seen
        · -- already visited: skipped; the witness is not this node
          simp only [bfsLoop, bfsStep, hsol, hseen, if_false, if_pos, if_neg,
            not_false_iff] at hrun
          have hne : n ≠ m := by
            intro hnm
            rw [hnm] at hcanon
            exact hunseen x (List.mem_cons_self _ _) (hcanon ▸ hseen)
          refine ih rest seen (List.pairwise_cons.mp hpw).2
            ⟨done, x, todo, hsplit, hunseen, n, ?_, hcanon, hdep⟩ t hrun
          rcases List.mem_cons.mp hnq with rfl | hnrest
          · exact absurd rfl hne
          · exact hnrest
        · by_cases hff : P.fail_fast (BNode.puzzle m) = true
          · -- fail-fast: discarded; the witness cannot be this node either
            simp only [bfsLoop, bfsStep, hsol, hseen, hff, if_true, if_false,
              if_pos, if_neg, not_false_iff] at hrun
            have hne : n ≠ m := by
              intro hnm
              rw [hnm] at hcanon
              have hffx : P.fail_fast x = true := by
                rw [← (HC (BNode.puzzle m) x hcanon).2.1]
                exact hff
              match todo with
              | [] =>
                have hxlast : r.getLast? = some x := by
                  rw [hsplit]
                  exact getLast?_of_concat done x
                have hxsol := hlast x hxlast
                rw [← (HC (BNode.puzzle m) x hcanon).1] at hxsol
                rw [hxsol] at hsol'
                exact Bool.false_ne_true hsol'.symm
              | w :: todo1 =>
                have hmem : x ∈ r.dropLast := by
                  rw [hsplit]
                  exact mem_dropLast_of_split done x (w :: todo1) (by simp)
                rw [hmidf x hmem] at hffx
                exact Bool.false_ne_true hffx
            refine ih rest seen (List.pairwise_cons.mp hpw).2
              ⟨done, x, todo, hsplit, hunseen, n, ?_, hcanon, hdep⟩ t hrun
            rcases List.mem_cons.mp hnq with rfl | hnrest
            · exact absurd rfl hne
            · exact hnrest
          · -- expansion step
            simp only [bfsLoop, bfsStep, hsol, hseen, hff, if_true, if_false,
              if_pos, if_neg, not_false_iff] at hrun
            set ch := ((P.extensions (BNode.puzzle m)).filter
                (fun e => decide (P.canon e ∉ P.canon (BNode.puzzle m) :: seen))).map
              (fun e => BNode.mk e [] (some m)) with hch
            have hchdepth : ∀ c ∈ ch, depth c = depth m + 1 := by
              intro c hc
              rcases List.mem_map.mp hc with ⟨e, _, rfl⟩
              rfl
            have hpw' : List.Pairwise (fun a b => depth a ≤ depth b ∧ depth b ≤ depth a + 1)
                (rest ++ ch) := by
              refine List.pairwise_append.mpr
                ⟨(List.pairwise_cons.mp hpw).2, ?_, ?_⟩
              · refine pairwise_of_forall_mem ch ?_
                intro c1 h1 c2 h2
                rw [hchdepth c1 h1, hchdepth c2 h2]
                omega
              · intro y hy c hc
                have h1 := (List.pairwise_cons.mp hpw).1 y hy
                rw [hchdepth c hc]
                omega
            by_cases hin : P.canon (BNode.puzzle m) ∈ (x :: todo).map P.canon
            · -- the expanded node sits on the chain: advance the witness
              rcases List.mem_map.mp hin with ⟨z, hz, hcz⟩
              rcases List.append_of_mem hz with ⟨pre, post, hxt⟩
              match post, hxt with
              | [], hxt =>
                exfalso
                have hr2 : r = (done ++ pre) ++ [z] := by
                  rw [hsplit, hxt]
                  simp
                have hzlast : r.getLast? = some z := by
                  rw [hr2]
                  exact getLast?_of_concat _ z
                have hzsol := hlast z hzlast
                rw [(HC z (BNode.puzzle m) hcz).1] at hzsol
                rw [hzsol] at hsol'
                exact Bool.false_ne_true hsol'.symm
              | w :: post1, hxt =>
                have hr2 : r = (done ++ pre) ++ z :: w :: post1 := by
                  rw [hsplit, hxt]
                  simp
                have hrelw := chain_rel_of_split P r (done ++ pre) post1 z w hchain hr2
                rw [(HC z (BNode.puzzle m) hcz).2.2] at hrelw
                rcases List.mem_map.mp hrelw with ⟨e, he, hce⟩
                have hwmem : w ∈ x :: todo := by
                  rw [hxt]
                  exact List.mem_append.mpr
                    (Or.inr (List.mem_cons_of_mem _ (List.mem_cons_self _ _)))
                have hwne : P.canon w ≠ P.canon z :=
                  map_nodup_split_ne P.canon r (done ++ pre) (w :: post1) z hnodup hr2
                    w (List.mem_cons_self _ _)
                have hepass : P.canon e ∉ P.canon (BNode.puzzle m) :: seen := by
                  rw [hce]
                  intro hmem
                  rcases List.mem_cons.mp hmem with heq | hmem
                  · exact hwne (heq.trans hcz.symm)
                  · exact hunseen w hwmem hmem
                have hcq : BNode.mk e [] (some m) ∈ rest ++ ch := by
                  refine List.mem_append.mpr (Or.inr ?_)
                  rw [hch]
                  exact List.mem_map.mpr
                    ⟨e, List.mem_filter.mpr ⟨he, by simpa using hepass⟩, rfl⟩
                refine ih (rest ++ ch) (P.canon (BNode.puzzle m) :: seen) hpw'
                  ⟨done ++ pre ++ [z], w, post1, ?_, ?_,
                    BNode.mk e [] (some m), hcq, ?_, ?_⟩ t hrun
                · rw [hsplit, hxt]
                  simp
                · intro u hu
                  have humem : u ∈ x :: todo := by
                    rw [hxt]
                    exact List.mem_append.mpr (Or.inr (List.mem_cons_of_mem _ hu))
                  intro hmem
                  rcases List.mem_cons.mp hmem with heq | hmem
                  · exact map_nodup_split_ne P.canon r (done ++ pre) (w :: post1) z
                      hnodup hr2 u hu (heq.trans hcz.symm)
                  · exact hunseen u humem hmem
                · exact hce
                · show depth m + 1 ≤ (done ++ pre ++ [z]).length
                  simp only [List.length_append, List.length_cons, List.length_nil]
                  omega
            · -- the expanded node is off the chain: the witness survives
              have hne : n ≠ m := by
                intro hnm
                rw [hnm] at hcanon
                exact hin (List.mem_map.mpr ⟨x, List.mem_cons_self _ _, hcanon.symm⟩)
              refine ih (rest ++ ch) (P.canon (BNode.puzzle m) :: seen) hpw'
                ⟨done, x, todo, hsplit, ?_, n, ?_, hcanon, hdep⟩ t hrun
              · intro u hu hmem
                rcases List.mem_cons.mp hmem with heq | hmem
                · exact hin (List.mem_map.mpr ⟨u, hu, heq⟩)
                · exact hunseen u hu hmem
              · rcases List.mem_cons.mp hnq with rfl | hnrest
                · exact absurd rfl hne
                · exact List.mem_append.mpr (Or.inl hnrest)

/-- C1: under the spec's canonical-string and fail-fast contracts, any
tree `breadth_first_solve` returns is a shortest solution: its edge count
is at most the edge count of every extension chain from the same initial
configuration to a solved configuration — equivalently, the first solved
node dequeued is at minimum move-count. -/
theorem c1_bfs_shortest :
    ∀ (α : Type) (P : PuzzleImpl α), CanonFaithful P → FailFastHonest P →
      ∀ (fuel : Nat) (init : α) (t : PNode α),
        breadth_first_solve P fuel init = SearchRes.found t →
        ∀ (q : List α), IsStateChain P q → q.head? = some init →
          (∃ z, q.getLast? = some z ∧ P.is_solved z = true) →
          (chainList t).length ≤ q.length
            ∧ (chainList t).length - 1 ≤ q.length - 1 := by
  intro α P HC HF fuel init t hrun q hq hqh hqz
  have hcq : IsCanonChain P q := isCanonChain_of_isStateChain P q hq
  rcases chain_cut_solved P q hcq hqz with
    ⟨q1, hq1ne, hq1ch, hq1hd, hq1last, hq1mid, hq1sub, hq1len⟩
  rcases canon_dedup P HC q1.length q1 (Nat.le_refl _) hq1ch hq1ne with
    ⟨r, hrne, hrch, hrnd, hrhd, hrlast, hrsub, hrlen⟩
  rcases hq1last with ⟨lq1, hlq1, hslq1⟩
  rcases hrlast lq1 hlq1 with ⟨lr, hlr, hclr⟩
  -- properties of the reduced chain r
  have hlast_r : ∀ z, r.getLast? = some z → P.is_solved z = true := by
    intro z hz
    rw [hlr] at hz
    cases Option.some.inj hz
    rw [(HC lr lq1 hclr).1]
    exact hslq1
  have hmids_r : ∀ x ∈ r.dropLast, P.is_solved x = false := by
    intro x hx
    rcases mem_dropLast_split r x hx with ⟨A, B, hAB, hBne⟩
    have hlrB : B.getLast? = some lr := by
      rw [hAB, List.getLast?_append_of_ne_nil A (by simp),
        getLast?_cons_of_ne_nil x B hBne] at hlr
      exact hlr
    have hxne : P.canon lr ≠ P.canon x :=
      map_nodup_split_ne P.canon r A B x hrnd hAB lr (mem_of_getLast?_eq hlrB)
    have hxr : x ∈ r := by
      rw [hAB]
      exact List.mem_append.mpr (Or.inr (List.mem_cons_self _ _))
    rcases hrsub x hxr with ⟨y, hy, hxy⟩
    have hyq1 : y ∈ q1.dropLast ++ [lq1] := by
      rw [List.dropLast_append_getLast? lq1 hlq1]
      exact hy
    rcases List.mem_append.mp hyq1 with hy1 | hy1
    · rw [(HC x y hxy).1]
      exact hq1mid y hy1
    · rcases List.mem_singleton.mp hy1 with rfl
      exact absurd (hclr.trans hxy.symm) hxne
  have hmidf_r : ∀ x ∈ r.dropLast, P.fail_fast x = false := by
    intro x hx
    rcases mem_dropLast_split r x hx with ⟨A, B, hAB, hBne⟩
    have hlrB : B.getLast? = some lr := by
      rw [hAB, List.getLast?_append_of_ne_nil A (by simp),
        getLast?_cons_of_ne_nil x B hBne] at hlr
      exact hlr
    have hsuf : IsCanonChain P (x :: B) :=
      isCanonChain_of_append P A (x :: B) (hAB ▸ hrch)
    rcases canonChain_to_stateChain P HC B x hsuf with ⟨l1, hst, hmap⟩
    have hl1ne : l1 ≠ [] := by
      intro h0
      rw [h0] at hmap
      match B, hBne, hmap with
      | b :: t, _, hmap => simp at hmap
    have hlast1 : (l1.map P.canon).getLast? = some (P.canon lr) := by
      rw [hmap, List.getLast?_map, hlrB]
      rfl
    rw [List.getLast?_map] at hlast1
    rcases hgl : l1.getLast? with _ | z1
    · rw [hgl] at hlast1
      simp at hlast1
    · rw [hgl] at hlast1
      have hcz1 : P.canon z1 = P.canon lr := by
        simpa using hlast1
      have hsz1 : P.is_solved z1 = true := by
        rw [(HC z1 lr hcz1).1]
        exact hlast_r lr hlr
      refine HF x l1 z1 hst ?_ hsz1
      rw [getLast?_cons_of_ne_nil x l1 hl1ne]
      exact hgl
  -- initial witness for the loop invariant
  match r, hrne, hrch, hrnd, hrhd, hrsub, hrlen, hlast_r, hmids_r, hmidf_r with
  | hr0 :: rtl, _, hrch, hrnd, hrhd, hrsub, hrlen, hlast_r, hmids_r, hmidf_r =>
    have hinit : P.canon hr0 = P.canon init := by
      have hq1h : q1.head? = some init := by
        rw [hq1hd]
        exact hqh
      rcases hrhd init hq1h with ⟨hr', hhr', hchr'⟩
      cases Option.some.inj hhr'
      exact hchr'
    have hbound := bfsLoop_bound P HC (hr0 :: rtl) hrch hrnd hlast_r hmids_r hmidf_r
      fuel [BNode.mk init [] none] []
      (List.pairwise_singleton _ _)
      ⟨[], hr0, rtl, rfl, by simp, BNode.mk init [] none,
        List.mem_singleton.mpr rfl, hinit.symm, Nat.le_refl 0⟩
      t hrun
    constructor
    · exact Nat.le_trans hbound (Nat.le_trans hrlen hq1len)
    · exact Nat.sub_le_sub_right (Nat.le_trans hbound (Nat.le_trans hrlen hq1len)) 1

/-- Witness for C1 on the two-state puzzle: the contracts hold, BFS finds
the chain `false -> true`, and its length is bounded by the length of the
explicit solution chain `[false, true]`. -/
theorem c1_witness :
    CanonFaithful boolImpl ∧ FailFastHonest boolImpl
    ∧ breadth_first_solve boolImpl 10 false
        = SearchRes.found (PNode.mk false [PNode.mk true []])
    ∧ IsStateChain boolImpl [false, true]
    ∧ ([false, true] : List Bool).head? = some false
    ∧ (∃ z, ([false, true] : List Bool).getLast? = some z
        ∧ boolImpl.is_solved z = true)
    ∧ (chainList (PNode.mk false [PNode.mk true []])).length
        ≤ ([false, true] : List Bool).length := by
  have hHC : CanonFaithful boolImpl := by
    unfold CanonFaithful
    decide
  have hHF : FailFastHonest boolImpl := fun p l z _ _ _ => rfl
  have hchain : IsStateChain boolImpl [false, true] := by
    refine List.chain'_cons'.mpr ⟨?_, List.chain'_singleton _⟩
    intro y hy
    cases hy
    decide
  exact ⟨hHC, hHF, rfl, hchain, rfl, ⟨true, rfl, rfl⟩,
    (c1_bfs_shortest Bool boolImpl hHC hHF 10 false
      (PNode.mk false [PNode.mk true []]) rfl [false, true] hchain rfl
      ⟨true, rfl, rfl⟩).1⟩
